import Mathlib

/-!
Verification of the local-path core of `filesystems-provider-node`.

The development shallowly embeds `src/file/fs/local/LocalPath.ts` and the
mount-resolution loop of `src/file/fs/local/LocalFileSystemProvider.ts`.
JavaScript strings are modelled as lists of characters; the Node.js `path`
functions the code delegates to (`path.parse`, `path.normalize`,
`path.resolve`, `path.relative`) are external dependencies of the repository
and are modelled here by definitions faithful to their documented behaviour,
with the process working directory passed explicitly where Node consults it.
-/

set_option autoImplicit false

/-- JavaScript strings are modelled as lists of characters (UTF-16 code
units; every character appearing below lies in the basic multilingual plane,
so one `Char` corresponds to one code unit). -/
abbrev Str := List Char

/-- Turn a Lean string literal into the `Str` model. -/
def str (s : String) : Str := s.data

/-- Model of JavaScript's `String.prototype.toUpperCase` applied to one
character. It is exact on ASCII and on U+00DF (LATIN SMALL LETTER SHARP S,
whose uppercase form is the two-character string "SS"); all other characters
are mapped to themselves. The theorems below either restrict attention to
ASCII strings or do not depend on the mapping's values outside this exact
fragment. -/
def jsCharToUpper (c : Char) : Str :=
  if 'a' ≤ c ∧ c ≤ 'z' then [Char.ofNat (c.toNat - 32)]
  else if c = 'ß' then ['S', 'S']
  else [c]

/-- `s.toUpperCase()`: concatenation of the per-character uppercase forms. -/
def jsToUpper (s : Str) : Str := (s.map jsCharToUpper).flatten

/-- First character of a string (`charCodeAt(0)` never sees the default,
since `jsCharToUpper` is never empty). -/
def head0 : Str → Char
  | [] => 'A'
  | c :: _ => c

/-- `s.substring(a)` for `a ≤ s.length`. -/
def substringFrom (s : Str) (a : Nat) : Str := s.drop a

/-- `s.substring(a, b)` for `a ≤ b`. -/
def substring (s : Str) (a b : Nat) : Str := (s.take b).drop a

/-- `s.lastIndexOf(c)`: `-1` when `c` does not occur. -/
def lastIndexOf (s : Str) (c : Char) : Int :=
  match s.reverse.findIdx? (· = c) with
  | none => -1
  | some j => (s.length : Int) - 1 - j

/-- The `LocalPathType` enumeration of `LocalPathType.ts`. -/
inductive LocalPathType where
  | ABSOLUTE
  | UNC
  | RELATIVE
  | DIRECTORY_RELATIVE
  | DRIVE_RELATIVE
deriving DecidableEq, Repr

/-- The state of a `LocalPath` object: its `type`, `root` and `path` fields.
The `fileSystem` field only supplies the platform separator, which the
operations below receive as an explicit `sep` argument; the memoised
`offsets` field is a pure function of `path` and is recomputed on demand. -/
structure LocalPath where
  type : LocalPathType
  root : Str
  path : Str
deriving DecidableEq, Repr

/-- A `Path` argument as received by `equals`/`startsWith`/`endWith`: either
an actual `LocalPath`, or a path of a different provider implementation (for
which `instanceof LocalPath` fails and `toLocalPath` throws
`ProviderMismatchException`). -/
inductive PathArg where
  | localPath (p : LocalPath)
  | foreign
deriving DecidableEq

namespace LocalPath

/-- `LocalPath.isEmpty`. -/
def isEmpty (p : LocalPath) : Bool := p.path.length == 0

/-- `LocalPath.emptyPath()`. -/
def emptyPath : LocalPath := ⟨LocalPathType.RELATIVE, [], []⟩

/-- The scanning loop of `LocalPath.initOffsets`: records the start offset of
each name element, beginning at offset `root.length`. The `rem` argument is
the part of `path` from offset `off` onwards, so `path.charAt(off)` is the
head of `rem`. -/
def offsetsLoop (sep : Char) (rem : Str) (start off : Nat) : List Nat :=
  match rem with
  | [] => if start ≠ off then [start] else []
  | c :: rest =>
    if c ≠ sep then offsetsLoop sep rest start (off + 1)
    else start :: offsetsLoop sep rest (off + 1) (off + 1)

/-- `LocalPath.initOffsets`: the empty path is considered to have one name
element, at offset `0`. -/
def initOffsets (sep : Char) (p : LocalPath) : List Nat :=
  if p.isEmpty then [0]
  else offsetsLoop sep (p.path.drop p.root.length) p.root.length p.root.length

/-- `LocalPath.getNameCount`. -/
def getNameCount (sep : Char) (p : LocalPath) : Nat :=
  (initOffsets sep p).length

/-- `LocalPath.elementAsString(i)`: the final element extends to the end of
`path`, any other element stops one character before the next offset. -/
def elementAsString (sep : Char) (p : LocalPath) (i : Nat) : Str :=
  let offsets := initOffsets sep p
  if i = offsets.length - 1 then substringFrom p.path (offsets.getD i 0)
  else substring p.path (offsets.getD i 0) (offsets.getD (i + 1) 0 - 1)

/-- The character loop of `LocalPath.compareTo`: on a raw mismatch both
characters are uppercased; if the uppercase forms still differ, the result is
the difference of the first code units of the uppercase forms; exhausting one
string yields the length difference. -/
def compareToLoop : Str → Str → Int
  | [], [] => 0
  | [], l => -(l.length : Int)
  | l, [] => (l.length : Int)
  | c1 :: t1, c2 :: t2 =>
    if c1 = c2 then compareToLoop t1 t2
    else
      let u1 := jsCharToUpper c1
      let u2 := jsCharToUpper c2
      if u1 = u2 then compareToLoop t1 t2
      else ((head0 u1).toNat : Int) - ((head0 u2).toNat : Int)

/-- `LocalPath.compareTo` (the cast `(other as LocalPath)` reads the `path`
field of the other object). -/
def compareTo (a b : LocalPath) : Int := compareToLoop a.path b.path

/-- `LocalPath.equals`: `false` for any non-`LocalPath` argument, otherwise
`compareTo(other) === 0`. -/
def equals (a : LocalPath) (b : PathArg) : Bool :=
  match b with
  | .localPath q => a.compareTo q == 0
  | .foreign => false

/-- `equals` specialised to a `LocalPath` argument. -/
def equalsL (a b : LocalPath) : Bool := a.compareTo b == 0

/-- `LocalPath.getRoot`. -/
def getRoot (p : LocalPath) : Option LocalPath :=
  if p.root.length = 0 then none
  else some ⟨p.type, p.root, p.root⟩

/-- `LocalPath.getParent`: `null` when the path is its own root component;
the root when the last separator lies inside the root; otherwise the prefix
of `path` up to (excluding) the last separator. -/
def getParent (sep : Char) (p : LocalPath) : Option LocalPath :=
  if p.root.length = p.path.length then none
  else
    let off := lastIndexOf p.path sep
    if off < (p.root.length : Int) then p.getRoot
    else some ⟨p.type, p.root, p.path.take off.toNat⟩

/-- The element-matching loop shared by `startsWith` (with `aOff = 0`) and
`endWith` (with `aOff = thisCount - otherCount`): compares `n` elements of
`b` against the elements of `a` shifted by `aOff`, case-insensitively. -/
def elementsMatch (sep : Char) (a b : LocalPath) (aOff : Nat) : Nat → Bool
  | 0 => true
  | n + 1 =>
    (jsToUpper (elementAsString sep a (aOff + n)) == jsToUpper (elementAsString sep b n))
      && elementsMatch sep a b aOff n

/-- `LocalPath.startsWith`. -/
def startsWith (sep : Char) (a : LocalPath) (b : PathArg) : Bool :=
  match b with
  | .foreign => false
  | .localPath other =>
    if jsToUpper a.root ≠ jsToUpper other.root then false
    else if other.isEmpty then a.isEmpty
    else if a.equalsL other then true
    else
      let thisCount := getNameCount sep a
      let otherCount := getNameCount sep other
      if otherCount ≤ thisCount then elementsMatch sep a other 0 otherCount
      else false

/-- `startsWith` specialised to a `LocalPath` argument. -/
def startsWithL (sep : Char) (a b : LocalPath) : Bool :=
  startsWith sep a (.localPath b)

/-- `LocalPath.endWith`. -/
def endWith (sep : Char) (a : LocalPath) (b : PathArg) : Bool :=
  match b with
  | .foreign => false
  | .localPath other =>
    if other.path.length > a.path.length then false
    else if other.isEmpty then a.isEmpty
    else
      let thisCount := getNameCount sep a
      let otherCount := getNameCount sep other
      if otherCount > thisCount then false
      else if 0 < other.root.length then
        if otherCount < thisCount then false
        else if jsToUpper a.root ≠ jsToUpper other.root then false
        else elementsMatch sep a other (thisCount - otherCount) otherCount
      else elementsMatch sep a other (thisCount - otherCount) otherCount

end LocalPath

/-- Errors surfaced by the embedded operations: `IllegalArgumentException`
(with its message) and `InvalidPathException` (offending path and reason). -/
inductive JsError where
  | illegalArgument (msg : Str)
  | invalidPath (path : Str) (reason : Str)
deriving DecidableEq, Repr

deriving instance DecidableEq for Except

namespace NodePath

/-- JS `s.split(c)`: splitting never yields an empty list. -/
def splitSegs (c : Char) : Str → List Str
  | [] => [[]]
  | a :: rest =>
    match splitSegs c rest with
    | [] => []
    | s :: ss => if a = c then [] :: s :: ss else (a :: s) :: ss

/-- Intercalation of segments with a separator character. -/
def joinSegs (c : Char) : List Str → Str
  | [] => []
  | [s] => s
  | s :: rest => s ++ c :: joinSegs c rest

/-- One step of Node's `normalizeString` segment processing: empty and `"."`
segments are dropped; `".."` cancels a preceding real segment, or is kept
when `allowAboveRoot` permits climbing above the start; other segments are
appended. -/
def dotStep (allowAboveRoot : Bool) (res : List Str) (seg : Str) : List Str :=
  if seg = [] ∨ seg = str "." then res
  else if seg = str ".." then
    if res ≠ [] ∧ res.getLast? ≠ some (str "..") then res.dropLast
    else if allowAboveRoot then res ++ [str ".."] else res
  else res ++ [seg]

/-- Node's `normalizeString` at segment level: the character-scanning loop of
Node processes exactly the maximal non-separator runs in order, which is what
folding `dotStep` over the split does. -/
def dotProcess (allowAboveRoot : Bool) (segs : List Str) : List Str :=
  segs.foldl (dotStep allowAboveRoot) []

/-- Model of Node.js `path.posix.normalize`: an empty input yields `"."`;
otherwise the segments are `normalizeString`-processed (climbing above the
root is only allowed for relative inputs), an empty result becomes `"/"`,
`"./"` or `"."`, and a trailing separator of the input is preserved. -/
def posixNormalize (s : Str) : Str :=
  if s = [] then str "."
  else
    let isAbsolute := s.head? = some '/'
    let trailingSeparator := s.getLast? = some '/'
    let rs := dotProcess (!isAbsolute) (splitSegs '/' s)
    if rs = [] then
      if isAbsolute then str "/"
      else if trailingSeparator then str "./" else str "."
    else
      let core := joinSegs '/' rs ++ (if trailingSeparator then ['/'] else [])
      if isAbsolute then '/' :: core else core

/-- The right-to-left accumulation loop of Node.js `path.posix.resolve`:
arguments are prepended (each with a trailing separator) until an absolute
one is found; the returned flag records whether an absolute argument was
reached. The caller appends the working directory as the final fallback. -/
def posixResolveAux : List Str → Str → Str × Bool
  | [], acc => (acc, false)
  | p :: rest, acc =>
    if p = [] then posixResolveAux rest acc
    else if p.head? = some '/' then (p ++ '/' :: acc, true)
    else posixResolveAux rest (p ++ '/' :: acc)

/-- Model of Node.js `path.posix.resolve(...args)` with the process working
directory `cwd` passed explicitly: the accumulated string is
`normalizeString`-processed, with `..` above the root dropped when the result
is absolute. -/
def posixResolve (cwd : Str) (args : List Str) : Str :=
  let ra := posixResolveAux (args.reverse ++ [cwd]) []
  let rs := dotProcess (!ra.2) (splitSegs '/' ra.1)
  if ra.2 then '/' :: joinSegs '/' rs
  else if rs = [] then str "." else joinSegs '/' rs

/-- Length of the longest common prefix of two segment lists. -/
def commonPrefixLen : List Str → List Str → Nat
  | a :: as, b :: bs => if a = b then commonPrefixLen as bs + 1 else 0
  | _, _ => 0

/-- Model of Node.js `path.posix.relative(from, to)`: both arguments are
first resolved to canonical absolute strings; if they coincide the result is
empty, otherwise it consists of one `".."` per `from`-segment beyond the
longest common segment prefix, followed by the remaining `to`-segments.
Node's implementation computes this with a character-level scan; on the
canonical outputs of `resolve` the two formulations agree. -/
def posixRelative (cwd fromStr toStr : Str) : Str :=
  let f := posixResolve cwd [fromStr]
  let t := posixResolve cwd [toStr]
  if f = t then []
  else
    let fs := (splitSegs '/' f).filter (· ≠ [])
    let ts := (splitSegs '/' t).filter (· ≠ [])
    let c := commonPrefixLen fs ts
    joinSegs '/' (List.replicate (fs.length - c) (str "..") ++ ts.drop c)

/-- The `dir`/`base` scan shared by Node's `parse` implementations: trailing
separators after the root are ignored, `base` is the maximal non-separator
suffix of what remains, and `dir` is everything before the separator that
precedes `base` — or the root when `base` starts right after it. -/
def parseSplit (isSep : Char → Bool) (s : Str) (rootEnd : Nat) : Str × Str × Str :=
  let root := s.take rootEnd
  let b1 := ((s.drop rootEnd).reverse.dropWhile (fun c => isSep c)).reverse
  if b1 = [] then (root, root, [])
  else
    let base := (b1.reverse.takeWhile (fun c => !isSep c)).reverse
    if base.length = b1.length then (root, root, base)
    else (root, s.take (rootEnd + b1.length - base.length - 1), base)

/-- Model of Node.js `path.posix.parse`, restricted to the `root`, `dir` and
`base` fields (the only ones the repository reads). -/
def posixParse (s : Str) : Str × Str × Str :=
  if s = [] then ([], [], [])
  else parseSplit (fun c => c = '/') s (if s.head? = some '/' then 1 else 0)

/-- Windows accepts both separators. -/
def isWinSep (c : Char) : Bool := c = '\\' || c = '/'

/-- ASCII drive letters. -/
def isDriveLetter (c : Char) : Bool :=
  ('A' ≤ c && c ≤ 'Z') || ('a' ≤ c && c ≤ 'z')

/-- Root length recognised by Node.js `path.win32.parse`: a single leading
separator, a UNC prefix `\\server\share\`, or a drive `X:` with an optional
following separator. -/
def win32RootLen (s : Str) : Nat :=
  match s with
  | [] => 0
  | [c] => if isWinSep c then 1 else 0
  | c0 :: c1 :: rest =>
    if isWinSep c0 then
      if isWinSep c1 then
        let server := rest.takeWhile (fun x => !isWinSep x)
        if server = [] then 1
        else
          let afterServer := rest.drop server.length
          if afterServer = [] then 1
          else
            let afterSeps := afterServer.dropWhile (fun x => isWinSep x)
            let share := afterSeps.takeWhile (fun x => !isWinSep x)
            if share = [] then 1
            else if share.length = afterSeps.length then s.length
            else 2 + server.length + (afterServer.length - afterSeps.length) + share.length + 1
      else 1
    else if isDriveLetter c0 && c1 = ':' then
      match rest with
      | [] => 2
      | c2 :: _ => if isWinSep c2 then 3 else 2
    else 0

/-- Model of Node.js `path.win32.parse`, restricted to `root`, `dir`, `base`. -/
def win32Parse (s : Str) : Str × Str × Str :=
  if s = [] then ([], [], [])
  else parseSplit isWinSep s (win32RootLen s)

end NodePath

namespace LocalPath

open NodePath

/-- The global regex replacement `p.replace(/([^:]\/)\/+/g, "$1")` of
`LocalPath.cleanSeparator`, reformulated as a single left-to-right scan: a
maximal run of slashes is reduced to one slash when it is preceded by a
non-colon character, and to at most two slashes when it occurs at the start
of the string or after a colon (where the regex can only start matching one
character into the run). -/
def collapseAux : Bool → Nat → Str → Str
  | _, _, [] => []
  | colonish, seen, c :: rest =>
    if c = '/' then
      if seen < (if colonish then 2 else 1) then '/' :: collapseAux colonish (seen + 1) rest
      else collapseAux colonish seen rest
    else c :: collapseAux (c = ':') 0 rest

def collapseSlashRuns (s : Str) : Str := collapseAux true 0 s

/-- JS `replaceAll("//", "/")`: non-overlapping, left to right. -/
def replaceDoubleSlash : Str → Str
  | [] => []
  | [c] => [c]
  | c1 :: c2 :: rest =>
    if c1 = '/' ∧ c2 = '/' then '/' :: replaceDoubleSlash rest
    else c1 :: replaceDoubleSlash (c2 :: rest)

/-- JS `replaceAll(":\\\\", ":\\")` (collapse `:\\` to `:\`). -/
def replaceColonBackslash : Str → Str
  | [] => []
  | [c] => [c]
  | [c1, c2] => [c1, c2]
  | c1 :: c2 :: c3 :: rest =>
    if c1 = ':' ∧ c2 = '\\' ∧ c3 = '\\' then ':' :: '\\' :: replaceColonBackslash rest
    else c1 :: replaceColonBackslash (c2 :: c3 :: rest)

/-- `LocalPath.cleanSeparator` on a POSIX platform: backslashes become
slashes, slash runs are collapsed by the regex, and for strings starting
with `/` every remaining `//` is replaced by `/`. -/
def cleanSeparatorPosix (p : Str) : Str :=
  let q := collapseSlashRuns (p.map (fun c => if c = '\\' then '/' else c))
  if q.head? = some '/' then replaceDoubleSlash q else q

/-- `LocalPath.cleanSeparator` on the Windows platform: after the shared
slash normalisation, slashes are turned back into backslashes and a doubled
backslash after a colon is collapsed. -/
def cleanSeparatorWin (p : Str) : Str :=
  let q := collapseSlashRuns (p.map (fun c => if c = '\\' then '/' else c))
  replaceColonBackslash (q.map (fun c => if c = '/' then '\\' else c))

/-- JS `endsWith` with a one-character suffix (the separator). -/
def endsWithChar (s : Str) (c : Char) : Bool := s.getLast? = some c

/-- JS `endsWith` with an arbitrary suffix. -/
def jsEndsWith (s suffix : Str) : Bool := suffix.isSuffixOf s

/-- JS `charAt(i)` comparisons: out-of-range positions yield the empty
string, which differs from every character; NUL stands in for it. -/
def getCh (s : Str) (i : Nat) : Char := s.getD i (Char.ofNat 0)

/-- `LocalPath.checkPathCharacters`: fails at the first invalid character. -/
def checkPathCharacters (isInvalid : Char → Bool) (path : Str) : Except JsError Unit :=
  match path.find? isInvalid with
  | some c => .error (.invalidPath path (str "invalid char : " ++ [c]))
  | none => .ok ()

/-- `LocalPath.isInvalidPathChar` on Windows: control characters below
`0x20` and the reserved set. -/
def isInvalidPathCharWin (c : Char) : Bool :=
  c < ' ' || (str "<>:\"|?*").contains c

/-- The path-type classification at the end of `LocalPath.pathFromJsPath`:
`\\` prefix means UNC, a leading separator or `X:<sep>` shape means
absolute, `X:` without a following separator means drive-relative, and
otherwise the caller-supplied default stands. -/
def classify (sep : Char) (newPath : Str) (pathType : LocalPathType) : LocalPathType :=
  if newPath.take 2 = str "\\\\" then LocalPathType.UNC
  else if newPath.head? = some '/' ∨
      (newPath.length ≥ 3 ∧ getCh newPath 1 = ':' ∧ getCh newPath 2 = sep) then
    LocalPathType.ABSOLUTE
  else if newPath.length ≥ 2 ∧ getCh newPath 1 = ':' ∧ getCh newPath 2 ≠ sep then
    LocalPathType.DRIVE_RELATIVE
  else pathType

/-- `LocalPath.pathFromJsPath`, parameterised by the platform separator,
platform `cleanSeparator` and platform invalid-character set. The input
triple is Node's `(root, dir, base)`. -/
def pathFromJsPath (sep : Char) (clean : Str → Str) (isInvalid : Char → Bool)
    (pp : Str × Str × Str) (pathType : LocalPathType) : Except JsError LocalPath :=
  let root0 := pp.1
  let dir := clean pp.2.1
  let base := pp.2.2
  let root1 := clean root0
  let newPath0 :=
    if endsWithChar dir sep || base.length = 0 || dir.length = 0 || jsToUpper dir = jsToUpper root1
    then dir ++ base else dir ++ sep :: base
  let rp :=
    if jsToUpper root1 ≠ jsToUpper newPath0 ∧ endsWithChar newPath0 sep then
      (root1, newPath0.take (newPath0.length - 1))
    else if jsToUpper root1 = jsToUpper newPath0 ∧ root1.length > 2 ∧ ¬ endsWithChar newPath0 sep then
      (if endsWithChar root1 sep then root1 else root1 ++ [sep], newPath0 ++ [sep])
    else (root1, newPath0)
  let newPath := rp.2
  (checkPathCharacters isInvalid (newPath.drop rp.1.length)).map fun _ =>
    ⟨classify sep newPath pathType, rp.1, newPath⟩

/-- `LocalPath.parse` on POSIX. POSIX has no invalid path characters, so the
character check never fails and the result is unwrapped by `parsePosix`. -/
def parsePosixE (s : Str) : Except JsError LocalPath :=
  pathFromJsPath '/' cleanSeparatorPosix (fun _ => false) (posixParse s) LocalPathType.RELATIVE

/-- `LocalPath.parse` on POSIX, with the impossible error case mapped to the
empty path. -/
def parsePosix (s : Str) : LocalPath :=
  match parsePosixE s with
  | .ok p => p
  | .error _ => emptyPath

/-- `LocalPath.parse` on Windows (may fail on reserved characters). -/
def parseWin (s : Str) : Except JsError LocalPath :=
  pathFromJsPath '\\' cleanSeparatorWin isInvalidPathCharWin (win32Parse s) LocalPathType.RELATIVE

/-- `LocalPath.isAbsolute`. -/
def isAbsolute (p : LocalPath) : Bool :=
  p.type = LocalPathType.ABSOLUTE || p.type = LocalPathType.UNC

/-- `LocalPath.normalize` on POSIX: `path.normalize` of the string form, a
trim of the final character when the result ends in `":."`, equals `"."`, or
ends in itself plus `"."` (vacuous), then a re-parse. -/
def normalize (p : LocalPath) : LocalPath :=
  let norm := posixNormalize p.path
  let norm1 :=
    if jsEndsWith norm (norm ++ ['.']) || jsEndsWith norm (str ":.") || (norm.length = 1 ∧ norm = str ".")
    then norm.take (norm.length - 1) else norm
  parsePosix norm1

/-- `LocalPath.resolve` on POSIX: textual `path.resolve` of the two string
forms, re-parsed. Node's `resolve` falls back to the process working
directory, made explicit as `cwd`. -/
def resolve (cwd : Str) (base other : LocalPath) : LocalPath :=
  parsePosix (posixResolve cwd [base.path, other.path])

/-- `LocalPath.relativize` on POSIX: the equal / type-mismatch /
root-mismatch / empty-base cases in order, then textual `path.relative`
re-parsed. (The `try/catch` around `path.relative` is vacuous: Node's
`relative` only throws on non-string arguments.) -/
def relativize (cwd : Str) (base other : LocalPath) : Except JsError LocalPath :=
  if base.equalsL other then .ok emptyPath
  else if base.type ≠ other.type then
    .error (.illegalArgument (str "'other' is different type of Path"))
  else if jsToUpper base.root ≠ jsToUpper other.root then
    .error (.illegalArgument (str "'other' has different root"))
  else if base.isEmpty then .ok other
  else .ok (parsePosix (posixRelative cwd base.path other.path))

/-- `LocalPath.toAbsolutePath` on POSIX: absolute paths are returned as is,
otherwise `path.resolve` against the working directory followed by
`pathFromJsPath` with default type `ABSOLUTE`. -/
def toAbsolutePath (cwd : Str) (p : LocalPath) : LocalPath :=
  if p.isAbsolute then p
  else
    match pathFromJsPath '/' cleanSeparatorPosix (fun _ => false)
        (posixParse (posixResolve cwd [p.path])) LocalPathType.ABSOLUTE with
    | .ok q => q
    | .error _ => emptyPath

end LocalPath

namespace LocalFileSystemProvider

open LocalPath

/-- The mount-selection loop of `LocalFileSystemProvider.getFileStore`: the
current candidate is replaced by a matching mount point when there is no
candidate yet or the mount point starts with the candidate. Mount points are
tagged with the index of the file store contributing them, preserving the
nested iteration order. -/
def getFileStoreLoop (sep : Char) (absolutePath : LocalPath) :
    List (Nat × LocalPath) → Option (Nat × LocalPath) → Option (Nat × LocalPath)
  | [], acc => acc
  | im :: rest, acc =>
    let accept :=
      match acc with
      | none => startsWithL sep absolutePath im.2
      | some f => startsWithL sep absolutePath im.2 && startsWithL sep im.2 f.2
    getFileStoreLoop sep absolutePath rest (if accept then some im else acc)

/-- `LocalFileSystemProvider.getFileStore` on POSIX: the query path is
absolutised, the mount points of all file stores are scanned in order, and
the winning store index and mount point are returned; with no match the
loop falls through to `IllegalArgumentException`. -/
def getFileStore (cwd : Str) (stores : List (List LocalPath)) (p : LocalPath) :
    Except JsError (Nat × LocalPath) :=
  let absolutePath := toAbsolutePath cwd p
  let mounts := (stores.enum.map (fun ims => ims.2.map (fun m => (ims.1, m)))).flatten
  match getFileStoreLoop '/' absolutePath mounts none with
  | some f => .ok f
  | none => .error (.illegalArgument (str "Path does not have a FileStore"))

end LocalFileSystemProvider

example : LocalPath.getNameCount '/' LocalPath.emptyPath = 1 := by decide

/-- ASCII characters (code points below 128). -/
def asciiChar (c : Char) : Bool := c.toNat < 128

/-- Strings of ASCII characters, on which `jsCharToUpper` is exact. -/
def asciiStr (s : Str) : Bool := s.all asciiChar

/-! ## C10: parent of the empty path

`getParent` of the empty path returns `null` — the root-only branch applies
because root length and path length are both `0` — even though the empty
path has one name element. -/

/-- C10: for every separator, `getParent` of the empty path (empty root and
empty body) is `null`, although the empty path has one name element. -/
theorem claim10_getParent_empty (sep : Char) :
    LocalPath.getParent sep LocalPath.emptyPath = none ∧
    LocalPath.getNameCount sep LocalPath.emptyPath = 1 := by
  constructor
  · rfl
  · rfl

/-! ## C7: the empty path has one empty name element -/

/-- C7: parsing the empty string (on either platform) yields a path with
exactly one name element, the empty string, at index `0`. -/
theorem claim7_empty_parse :
    LocalPath.parsePosix (str "") = LocalPath.emptyPath ∧
    LocalPath.getNameCount '/' (LocalPath.parsePosix (str "")) = 1 ∧
    LocalPath.elementAsString '/' (LocalPath.parsePosix (str "")) 0 = str "" ∧
    LocalPath.parseWin (str "") = .ok LocalPath.emptyPath ∧
    LocalPath.getNameCount '\\' LocalPath.emptyPath = 1 ∧
    LocalPath.elementAsString '\\' LocalPath.emptyPath 0 = str "" := by
  decide

/-! ## C6: case sensitivity of `equals` -/

/-- Parse two Windows path strings and compare them with `equals`; `false`
when either fails to parse. -/
def winParseEquals (s1 s2 : Str) : Bool :=
  match LocalPath.parseWin s1, LocalPath.parseWin s2 with
  | .ok a, .ok b => a.equalsL b
  | _, _ => false

/-- C6 fails as stated: the POSIX-style comparison of two paths differing
only in letter case returns `true`, not `false` — `compareTo` uppercases on
both platforms. -/
theorem claim6_counterexample :
    (LocalPath.parsePosix (str "/Foo")).equalsL (LocalPath.parsePosix (str "/FOO")) = true := by
  decide

/-- C6 amended: equality of parsed paths is case-insensitive for
Windows-style paths AND for POSIX-style paths; `parse("C:\\Foo") equals
parse("C:\\FOO")` on Windows, and the analogous POSIX comparison is also
`true`. -/
theorem claim6_case_insensitive :
    winParseEquals (str "C:\\Foo") (str "C:\\FOO") = true ∧
    (LocalPath.parsePosix (str "/Foo")).equalsL (LocalPath.parsePosix (str "/FOO")) = true := by
  decide

/-! ## C3: the case analysis of `relativize` -/

/-- C3: `relativize` proceeds by the stated case analysis in order — equal
paths give the empty path, then a type mismatch fails, then a
case-insensitive root mismatch fails, then an empty base returns `other`
unchanged. -/
theorem claim3_relativize_cases (cwd : Str) (base other : LocalPath) :
    (base.equalsL other = true →
      LocalPath.relativize cwd base other = .ok LocalPath.emptyPath) ∧
    (base.equalsL other = false → base.type ≠ other.type →
      LocalPath.relativize cwd base other =
        .error (.illegalArgument (str "'other' is different type of Path"))) ∧
    (base.equalsL other = false → base.type = other.type →
      jsToUpper base.root ≠ jsToUpper other.root →
      LocalPath.relativize cwd base other =
        .error (.illegalArgument (str "'other' has different root"))) ∧
    (base.equalsL other = false → base.type = other.type →
      jsToUpper base.root = jsToUpper other.root → base.isEmpty = true →
      LocalPath.relativize cwd base other = .ok other) := by
  unfold LocalPath.relativize
  refine ⟨?_, ?_, ?_, ?_⟩ <;> intros <;> simp_all

/-- Witness for C3 at concrete inputs: a relative base and an absolute
`other` hit the type-mismatch case. -/
theorem claim3_witness :
    LocalPath.relativize (str "/cwd") (LocalPath.parsePosix (str "a"))
      (LocalPath.parsePosix (str "/b")) =
      .error (.illegalArgument (str "'other' is different type of Path")) :=
  (claim3_relativize_cases (str "/cwd") _ _).2.1 (by decide) (by decide)

/-! ## C8: a root-bearing suffix requires equal roots and equal counts -/

/-- C8: whenever `b` carries a non-empty root (and its root is a literal
prefix of its path, as for every parsed path), `endWith a b = true` forces
`b`'s root to equal `a`'s case-insensitively and `b`'s name count to equal
`a`'s exactly. -/
theorem claim8_endsWith_rooted (sep : Char) (a b : LocalPath)
    (hwf : b.root.isPrefixOf b.path = true) (hroot : b.root ≠ [])
    (h : LocalPath.endWith sep a (.localPath b) = true) :
    jsToUpper a.root = jsToUpper b.root ∧
    LocalPath.getNameCount sep a = LocalPath.getNameCount sep b := by
  have hrootlen : 0 < b.root.length := List.length_pos.mpr hroot
  have hbe : b.isEmpty = false := by
    by_contra hx
    have hpath : b.path = [] := by
      have hx2 : b.isEmpty = true := by simpa using hx
      simpa [LocalPath.isEmpty, List.length_eq_zero] using hx2
    rw [hpath] at hwf
    exact hroot (List.prefix_nil.mp (List.isPrefixOf_iff_prefix.mp hwf))
  unfold LocalPath.endWith at h
  dsimp only at h
  simp only [hbe, Bool.false_eq_true, if_false] at h
  split_ifs at h with h1 h3 h5 h6
  exact ⟨not_ne_iff.mp h6, by omega⟩

/-- Witness for C8: a path ends with itself, and for it the hypotheses and
conclusions of `claim8_endsWith_rooted` hold at `"/a"`. -/
theorem claim8_witness :
    jsToUpper (LocalPath.parsePosix (str "/a")).root =
      jsToUpper (LocalPath.parsePosix (str "/a")).root ∧
    LocalPath.getNameCount '/' (LocalPath.parsePosix (str "/a")) =
      LocalPath.getNameCount '/' (LocalPath.parsePosix (str "/a")) :=
  claim8_endsWith_rooted '/' _ _ (by decide) (by decide) (by decide)

/-! ## C5: ordering laws of `compareTo`/`equals` -/

/-- Uppercase of an ASCII character. -/
def asciiUpper (c : Char) : Char :=
  if 'a' ≤ c ∧ c ≤ 'z' then Char.ofNat (c.toNat - 32) else c

theorem char_toNat_inj {c1 c2 : Char} (h : c1.toNat = c2.toNat) : c1 = c2 := by
  have := congrArg Char.ofNat h
  rwa [Char.ofNat_toNat, Char.ofNat_toNat] at this

theorem jsCharToUpper_ascii (c : Char) (h : asciiChar c = true) :
    jsCharToUpper c = [asciiUpper c] := by
  unfold jsCharToUpper asciiUpper
  split_ifs with h1 h2
  · rfl
  · exfalso
    subst h2
    exact absurd h (by decide)
  · rfl

/-- Plain JS-style string comparison: difference of the first differing code
units, then length difference. On ASCII strings `compareTo` is this
comparison applied to the uppercased strings. -/
def intCompare : Str → Str → Int
  | [], [] => 0
  | [], l => -(l.length : Int)
  | l, [] => (l.length : Int)
  | a :: as, b :: bs => if a = b then intCompare as bs else (a.toNat : Int) - b.toNat

theorem compareToLoop_ascii (s1 : Str) : ∀ s2 : Str, asciiStr s1 = true → asciiStr s2 = true →
    LocalPath.compareToLoop s1 s2 = intCompare (s1.map asciiUpper) (s2.map asciiUpper) := by
  induction s1 with
  | nil =>
    intro s2 _ _
    cases s2 <;> simp [LocalPath.compareToLoop, intCompare]
  | cons c1 t1 ih =>
    intro s2 h1 h2
    cases s2 with
    | nil => simp [LocalPath.compareToLoop, intCompare]
    | cons c2 t2 =>
      simp only [asciiStr, List.all_cons, Bool.and_eq_true] at h1 h2
      obtain ⟨hc1, ht1⟩ := h1
      obtain ⟨hc2, ht2⟩ := h2
      simp only [LocalPath.compareToLoop, List.map_cons, intCompare]
      by_cases hcc : c1 = c2
      · subst hcc
        simp [ih t2 ht1 ht2]
      · rw [jsCharToUpper_ascii c1 hc1, jsCharToUpper_ascii c2 hc2]
        by_cases hu : asciiUpper c1 = asciiUpper c2
        · simp [hcc, hu, ih t2 ht1 ht2]
        · simp [hcc, hu, head0]

theorem compareToLoop_antisymm (s1 : Str) : ∀ s2 : Str,
    LocalPath.compareToLoop s1 s2 = -(LocalPath.compareToLoop s2 s1) := by
  induction s1 with
  | nil =>
    intro s2
    cases s2 <;> simp [LocalPath.compareToLoop]
  | cons c1 t1 ih =>
    intro s2
    cases s2 with
    | nil => simp [LocalPath.compareToLoop]
    | cons c2 t2 =>
      simp only [LocalPath.compareToLoop]
      by_cases hcc : c1 = c2
      · subst hcc
        simp [ih]
      · have hcc2 : ¬ c2 = c1 := fun hx => hcc hx.symm
        simp only [hcc, hcc2, if_false]
        by_cases hu : jsCharToUpper c1 = jsCharToUpper c2
        · rw [if_pos hu, if_pos hu.symm]
          exact ih t2
        · have hu2 : ¬ jsCharToUpper c2 = jsCharToUpper c1 := fun hx => hu hx.symm
          rw [if_neg hu, if_neg hu2]
          omega

theorem intCompare_trans (a : Str) : ∀ b c : Str,
    intCompare a b ≤ 0 → intCompare b c ≤ 0 → intCompare a c ≤ 0 := by
  induction a with
  | nil =>
    intro b c _ _
    cases c with
    | nil => simp [intCompare]
    | cons z zs =>
      simp [intCompare]
      omega
  | cons x xs ih =>
    intro b c h1 h2
    cases b with
    | nil =>
      simp [intCompare] at h1
      omega
    | cons y ys =>
      cases c with
      | nil =>
        simp [intCompare] at h2
        omega
      | cons z zs =>
        simp only [intCompare] at h1 h2 ⊢
        by_cases hxy : x = y <;> by_cases hyz : y = z
        · subst hxy; subst hyz
          simp only [if_pos rfl] at h1 h2 ⊢
          exact ih ys zs h1 h2
        · subst hxy
          rw [if_pos rfl] at h1
          rw [if_neg hyz] at h2
          have hxz : ¬ x = z := hyz
          rw [if_neg hxz]
          exact h2
        · subst hyz
          rw [if_neg hxy] at h1
          rw [if_pos rfl] at h2
          rw [if_neg hxy]
          exact h1
        · rw [if_neg hxy] at h1
          rw [if_neg hyz] at h2
          have hxyn : x.toNat ≠ y.toNat := fun hx => hxy (char_toNat_inj hx)
          have hyzn : y.toNat ≠ z.toNat := fun hx => hyz (char_toNat_inj hx)
          have hxz : ¬ x = z := by
            intro hder
            subst hder
            omega
          rw [if_neg hxz]
          omega

/-- C5 amended: for `LocalPath`s, `equals` is `true` iff `compareTo` is `0`,
`equals` is `false` (not an error) on a non-`LocalPath` argument, and
`compareTo` is antisymmetric; transitivity holds on paths of ASCII
characters (on arbitrary strings it fails, see the counterexample: JS
uppercases `"ß"` to the two-character `"SS"`). -/
theorem claim5_ordering (a b c : LocalPath) :
    (a.equals (.localPath b) = true ↔ a.compareTo b = 0) ∧
    a.equals .foreign = false ∧
    a.compareTo b = -(b.compareTo a) ∧
    (asciiStr a.path = true → asciiStr b.path = true → asciiStr c.path = true →
      a.compareTo b ≤ 0 → b.compareTo c ≤ 0 → a.compareTo c ≤ 0) := by
  refine ⟨?_, rfl, compareToLoop_antisymm _ _, ?_⟩
  · simp [LocalPath.equals, LocalPath.compareTo]
  · intro ha hb hc h1 h2
    rw [LocalPath.compareTo, compareToLoop_ascii _ _ ha hc]
    rw [LocalPath.compareTo, compareToLoop_ascii _ _ ha hb] at h1
    rw [LocalPath.compareTo, compareToLoop_ascii _ _ hb hc] at h2
    exact intCompare_trans _ _ _ h1 h2

/-- Witness for C5 at concrete ASCII inputs `"a" ≤ "B" ≤ "c"`. -/
theorem claim5_witness :
    (⟨LocalPathType.RELATIVE, [], str "a"⟩ : LocalPath).compareTo
      ⟨LocalPathType.RELATIVE, [], str "c"⟩ ≤ 0 :=
  (claim5_ordering ⟨LocalPathType.RELATIVE, [], str "a"⟩
      ⟨LocalPathType.RELATIVE, [], str "B"⟩
      ⟨LocalPathType.RELATIVE, [], str "c"⟩).2.2.2
    (by decide) (by decide) (by decide) (by decide) (by decide)

/-! ## Counterexamples to C1, C2, C4, C5 -/

/-- C1 fails as stated: `base = parse("/x")` and `other = parse("/a/../b")`
have the same type (`ABSOLUTE`) and equal roots (`"/"`), so `relativize`
succeeds (with `"../b"`), but resolving normalizes the `..` away:
`resolve(base, relativize(base, other))` is `"/b"`, which does not equal
`other` (`"/a/../b"`). -/
theorem claim1_counterexample :
    (LocalPath.parsePosix (str "/x")).type = (LocalPath.parsePosix (str "/a/../b")).type ∧
    jsToUpper (LocalPath.parsePosix (str "/x")).root =
      jsToUpper (LocalPath.parsePosix (str "/a/../b")).root ∧
    LocalPath.relativize (str "/cwd") (LocalPath.parsePosix (str "/x"))
        (LocalPath.parsePosix (str "/a/../b")) =
      .ok (LocalPath.parsePosix (str "../b")) ∧
    (LocalPath.resolve (str "/cwd") (LocalPath.parsePosix (str "/x"))
        (LocalPath.parsePosix (str "../b"))).equalsL
      (LocalPath.parsePosix (str "/a/../b")) = false := by
  decide

/-- C2 fails as stated: for the absolute `other = parse("/a/./b")`,
`resolve(base, other)` re-normalizes the textual join and returns a path
whose string is `"/a/b"`, which is not (even case-insensitively) equal to
`other`; and for relative `base = parse("x")` with `other` empty, `resolve`
absolutizes against the working directory instead of returning `base`. -/
theorem claim2_counterexample :
    (LocalPath.resolve (str "/cwd") (LocalPath.parsePosix (str "/x"))
        (LocalPath.parsePosix (str "/a/./b"))).equalsL
      (LocalPath.parsePosix (str "/a/./b")) = false ∧
    (LocalPath.resolve (str "/cwd") (LocalPath.parsePosix (str "x"))
        LocalPath.emptyPath).equalsL (LocalPath.parsePosix (str "x")) = false ∧
    LocalPath.resolve (str "/cwd") (LocalPath.parsePosix (str "x")) LocalPath.emptyPath =
      LocalPath.parsePosix (str "/cwd/x") := by
  decide

/-- C4 fails as stated: for the path value with string `"./"`,
`normalize` yields the path `"."`, but normalizing again yields the empty
path, so `normalize` is not idempotent on all `LocalPath` values. -/
theorem claim4_counterexample :
    (LocalPath.normalize ⟨LocalPathType.RELATIVE, [], str "./"⟩).path = str "." ∧
    (LocalPath.normalize (LocalPath.normalize ⟨LocalPathType.RELATIVE, [], str "./"⟩)).path = str "" ∧
    (LocalPath.normalize (LocalPath.normalize ⟨LocalPathType.RELATIVE, [], str "./"⟩)).equalsL
      (LocalPath.normalize ⟨LocalPathType.RELATIVE, [], str "./"⟩) = false := by
  decide

/-- C5 fails as stated: `compareTo` is not transitive. JavaScript uppercases
`"ß"` to `"SS"` and `compareTo` then compares only the first code units, so
`"SS" ≈ "ß" ≈ "S"` while `"SS"` and `"S"` differ — the zero class of
`compareTo` (and hence `equals`) is not an equivalence. -/
theorem claim5_counterexample :
    (⟨LocalPathType.RELATIVE, [], str "SS"⟩ : LocalPath).compareTo ⟨LocalPathType.RELATIVE, [], str "ß"⟩ = 0 ∧
    (⟨LocalPathType.RELATIVE, [], str "ß"⟩ : LocalPath).compareTo ⟨LocalPathType.RELATIVE, [], str "S"⟩ = 0 ∧
    (⟨LocalPathType.RELATIVE, [], str "SS"⟩ : LocalPath).compareTo ⟨LocalPathType.RELATIVE, [], str "S"⟩ = 1 ∧
    (⟨LocalPathType.RELATIVE, [], str "SS"⟩ : LocalPath).equalsL ⟨LocalPathType.RELATIVE, [], str "ß"⟩ = true ∧
    (⟨LocalPathType.RELATIVE, [], str "ß"⟩ : LocalPath).equalsL ⟨LocalPathType.RELATIVE, [], str "S"⟩ = true ∧
    (⟨LocalPathType.RELATIVE, [], str "SS"⟩ : LocalPath).equalsL ⟨LocalPathType.RELATIVE, [], str "S"⟩ = false := by
  decide

example : LocalPath.getNameCount '/' ⟨LocalPathType.ABSOLUTE, str "/", str "/a/bc"⟩ = 2 := by
  decide

example : LocalPath.elementAsString '/' ⟨LocalPathType.ABSOLUTE, str "/", str "/a/bc"⟩ 1 = str "bc" := by
  decide

example : LocalPath.compareTo ⟨LocalPathType.RELATIVE, [], str "abc"⟩
    ⟨LocalPathType.RELATIVE, [], str "ABC"⟩ = 0 := by decide

/-! ## Canonical-path infrastructure (POSIX)

Lemmas describing the behaviour of the embedded Node path functions and of
`LocalPath.parse` on segment-structured strings, used for the resolve /
relativize round trip (C1), the resolve laws (C2), normalize idempotence
(C4) and mount resolution (C9). -/

namespace NodePath

/-- Segment well-formedness: nonempty and free of both separator characters
(a backslash in a non-final segment would be rewritten by
`cleanSeparator`). -/
def SegOk (g : Str) : Prop := g ≠ [] ∧ '/' ∉ g ∧ '\\' ∉ g

/-- A canonical name segment: well-formed and not a dot form. -/
def CanonSeg (g : Str) : Prop := SegOk g ∧ g ≠ str "." ∧ g ≠ str ".."

instance (g : Str) : Decidable (SegOk g) := by
  unfold SegOk
  infer_instance

instance (g : Str) : Decidable (CanonSeg g) := by
  unfold CanonSeg
  infer_instance

/-- String form of a POSIX path assembled from segments: optional leading
slash, slash-joined segments, optional trailing slash. -/
def mkS (abs : Bool) (rs : List Str) (trail : Bool) : Str :=
  (if abs then ['/'] else []) ++ joinSegs '/' rs ++ (if trail then ['/'] else [])

/-- Canonical absolute POSIX path string (`"/"` when `gs = []`). -/
def mkAbs (gs : List Str) : Str := mkS true gs false

theorem splitSegs_ne_nil (c : Char) (s : Str) : splitSegs c s ≠ [] := by
  induction s with
  | nil => simp [splitSegs]
  | cons a rest ih =>
    simp only [splitSegs]
    match hs : splitSegs c rest with
    | [] => exact absurd hs ih
    | t :: ts => split_ifs <;> simp

theorem splitSegs_nosep (c : Char) (g : Str) (h : c ∉ g) : splitSegs c g = [g] := by
  induction g with
  | nil => rfl
  | cons a rest ih =>
    have hne : a ≠ c := fun hx => h (hx ▸ List.mem_cons_self a rest)
    have hrest : c ∉ rest := fun hx => h (List.mem_cons_of_mem a hx)
    simp only [splitSegs, ih hrest]
    simp [hne]

theorem splitSegs_append_sep (c : Char) (g rest : Str) (h : c ∉ g) :
    splitSegs c (g ++ c :: rest) = g :: splitSegs c rest := by
  induction g with
  | nil =>
    simp [splitSegs]
    match hs : splitSegs c rest with
    | [] => exact absurd hs (splitSegs_ne_nil c rest)
    | t :: ts => rfl
  | cons a g2 ih =>
    have hne : a ≠ c := fun hx => h (hx ▸ List.mem_cons_self a g2)
    have hg2 : c ∉ g2 := fun hx => h (List.mem_cons_of_mem a hx)
    simp only [List.cons_append, splitSegs, List.append_eq]
    rw [ih hg2]
    simp [hne]

theorem splitSegs_join (gs : List Str) (h : ∀ g ∈ gs, '/' ∉ g) (hne : gs ≠ []) :
    splitSegs '/' (joinSegs '/' gs) = gs := by
  induction gs with
  | nil => exact absurd rfl hne
  | cons g gs2 ih =>
    cases gs2 with
    | nil =>
      exact splitSegs_nosep '/' g (h g (List.mem_cons_self g []))
    | cons g2 gs3 =>
      have hjoin : joinSegs '/' (g :: g2 :: gs3) = g ++ '/' :: joinSegs '/' (g2 :: gs3) := rfl
      rw [hjoin, splitSegs_append_sep '/' g _ (h g (List.mem_cons_self g _)),
        ih (fun x hx => h x (List.mem_cons_of_mem g hx)) (by simp)]

theorem splitSegs_join_append (gs : List Str) (rest : Str)
    (h : ∀ g ∈ gs, '/' ∉ g) (hne : gs ≠ []) :
    splitSegs '/' (joinSegs '/' gs ++ '/' :: rest) = gs ++ splitSegs '/' rest := by
  induction gs with
  | nil => exact absurd rfl hne
  | cons g gs2 ih =>
    cases gs2 with
    | nil =>
      simpa using splitSegs_append_sep '/' g rest (h g (List.mem_cons_self g []))
    | cons g2 gs3 =>
      have hjoin : joinSegs '/' (g :: g2 :: gs3) = g ++ '/' :: joinSegs '/' (g2 :: gs3) := rfl
      rw [hjoin, List.append_assoc, List.cons_append,
        splitSegs_append_sep '/' g _ (h g (List.mem_cons_self g _)),
        ih (fun x hx => h x (List.mem_cons_of_mem g hx)) (by simp)]
      simp

theorem joinSegs_ne_nil (gs : List Str) (h : ∀ g ∈ gs, g ≠ []) (hne : gs ≠ []) :
    joinSegs '/' gs ≠ [] := by
  cases gs with
  | nil => exact absurd rfl hne
  | cons g gs2 =>
    cases gs2 with
    | nil => exact h g (List.mem_cons_self g [])
    | cons g2 gs3 =>
      have : joinSegs '/' (g :: g2 :: gs3) = g ++ '/' :: joinSegs '/' (g2 :: gs3) := rfl
      rw [this]
      simp

theorem joinSegs_getLast_ne_slash (gs : List Str)
    (h : ∀ g ∈ gs, g ≠ [] ∧ '/' ∉ g) (hne : gs ≠ []) :
    ∀ x, (joinSegs '/' gs).getLast? = some x → x ≠ '/' := by
  induction gs with
  | nil => exact absurd rfl hne
  | cons g gs2 ih =>
    cases gs2 with
    | nil =>
      intro x hx
      have hmem : x ∈ g := List.mem_of_mem_getLast? hx
      exact fun hc => (h g (List.mem_cons_self g [])).2 (hc ▸ hmem)
    | cons g2 gs3 =>
      intro x hx
      have hj : joinSegs '/' (g :: g2 :: gs3) = g ++ '/' :: joinSegs '/' (g2 :: gs3) := rfl
      have hne2 : joinSegs '/' (g2 :: gs3) ≠ [] :=
        joinSegs_ne_nil _ (fun y hy => (h y (List.mem_cons_of_mem g hy)).1) (by simp)
      rw [hj, List.getLast?_append_cons] at hx
      have hx2 : (joinSegs '/' (g2 :: gs3)).getLast? = some x := by
        have : ('/' :: joinSegs '/' (g2 :: gs3)) = ['/'] ++ joinSegs '/' (g2 :: gs3) := rfl
        rwa [this, List.getLast?_append_of_ne_nil _ hne2] at hx
      exact ih (fun y hy => h y (List.mem_cons_of_mem g hy)) (by simp) x hx2

end NodePath

namespace NodePath

theorem splitSegs_sep_not_mem (c : Char) (s : Str) : ∀ g ∈ splitSegs c s, c ∉ g := by
  induction s with
  | nil =>
    intro g hg
    simp [splitSegs] at hg
    subst hg
    simp
  | cons a rest ih =>
    intro g hg
    simp only [splitSegs] at hg
    cases hs : splitSegs c rest with
    | nil => exact absurd hs (splitSegs_ne_nil c rest)
    | cons t ts =>
      rw [hs] at hg
      dsimp only at hg
      by_cases hac : a = c
      · rw [if_pos hac] at hg
        rcases List.mem_cons.mp hg with hg1 | hg2
        · subst hg1
          simp
        · exact ih g (by rw [hs]; exact hg2)
      · rw [if_neg hac] at hg
        rcases List.mem_cons.mp hg with hg1 | hg2
        · subst hg1
          intro hc
          rcases List.mem_cons.mp hc with h1 | h2
          · exact hac h1.symm
          · exact ih t (by rw [hs]; exact List.mem_cons_self t ts) h2
        · exact ih g (by rw [hs]; exact List.mem_cons_of_mem t hg2)

theorem splitSegs_mem_chars (c : Char) (s : Str) :
    ∀ g ∈ splitSegs c s, ∀ x ∈ g, x ∈ s := by
  induction s with
  | nil =>
    intro g hg
    simp [splitSegs] at hg
    subst hg
    simp
  | cons a rest ih =>
    intro g hg x hx
    simp only [splitSegs] at hg
    cases hs : splitSegs c rest with
    | nil => exact absurd hs (splitSegs_ne_nil c rest)
    | cons t ts =>
      rw [hs] at hg
      dsimp only at hg
      by_cases hac : a = c
      · rw [if_pos hac] at hg
        rcases List.mem_cons.mp hg with hg1 | hg2
        · subst hg1
          simp at hx
        · exact List.mem_cons_of_mem a (ih g (by rw [hs]; exact hg2) x hx)
      · rw [if_neg hac] at hg
        rcases List.mem_cons.mp hg with hg1 | hg2
        · subst hg1
          rcases List.mem_cons.mp hx with h1 | h2
          · exact h1 ▸ List.mem_cons_self a rest
          · exact List.mem_cons_of_mem a
              (ih t (by rw [hs]; exact List.mem_cons_self t ts) x h2)
        · exact List.mem_cons_of_mem a
            (ih g (by rw [hs]; exact List.mem_cons_of_mem t hg2) x hx)

end NodePath

namespace NodePath

theorem foldl_dotStep_canon (allow : Bool) (segs : List Str)
    (h : ∀ g ∈ segs, g ≠ [] ∧ g ≠ str "." ∧ g ≠ str "..") :
    ∀ res : List Str, List.foldl (dotStep allow) res segs = res ++ segs := by
  induction segs with
  | nil => simp
  | cons g segs2 ih =>
    intro res
    obtain ⟨h1, h2, h3⟩ := h g (List.mem_cons_self g _)
    have hstep : dotStep allow res g = res ++ [g] := by
      unfold dotStep
      rw [if_neg (by simp [h1, h2]), if_neg h3]
    rw [List.foldl_cons, hstep, ih (fun x hx => h x (List.mem_cons_of_mem g hx))]
    simp

theorem foldl_dotStep_skip (allow : Bool) (segs : List Str)
    (h : ∀ g ∈ segs, g = [] ∨ g = str ".") :
    ∀ res : List Str, List.foldl (dotStep allow) res segs = res := by
  induction segs with
  | nil => simp
  | cons g segs2 ih =>
    intro res
    have hstep : dotStep allow res g = res := by
      unfold dotStep
      rw [if_pos (h g (List.mem_cons_self g _))]
    rw [List.foldl_cons, hstep, ih (fun x hx => h x (List.mem_cons_of_mem g hx))]

theorem foldl_dotStep_dotdots_pop (res : List Str) (k : Nat)
    (h : ∀ g ∈ res, g ≠ str "..") (hk : k ≤ res.length) :
    List.foldl (dotStep false) res (List.replicate k (str "..")) =
      res.take (res.length - k) := by
  induction k generalizing res with
  | zero => simp
  | succ k2 ih =>
    have hres : res ≠ [] := by
      intro hx
      subst hx
      simp at hk
    have hlast : res.getLast? ≠ some (str "..") := by
      intro hx
      exact h _ (List.mem_of_mem_getLast? hx) rfl
    have hstep : dotStep false res (str "..") = res.dropLast := by
      unfold dotStep
      rw [if_neg (by simp [str]), if_pos rfl, if_pos (And.intro hres hlast)]
    rw [List.replicate_succ, List.foldl_cons, hstep,
      ih res.dropLast (fun x hx => h x (List.mem_of_mem_dropLast hx))
        (by simp [List.length_dropLast]; omega)]
    rw [List.dropLast_eq_take]
    rw [List.take_take]
    congr 1
    simp [List.length_dropLast]
    omega

theorem foldl_dotStep_dotdots_keep (i k : Nat) :
    List.foldl (dotStep true) (List.replicate i (str "..")) (List.replicate k (str "..")) =
      List.replicate (i + k) (str "..") := by
  induction k generalizing i with
  | zero => simp
  | succ k2 ih =>
    have hstep : dotStep true (List.replicate i (str "..")) (str "..") =
        List.replicate (i + 1) (str "..") := by
      unfold dotStep
      rw [if_neg (by simp [str]), if_pos rfl]
      cases i with
      | zero => simp
      | succ i2 =>
        have hlast2 : (List.replicate (i2 + 1) (str "..")).getLast? = some (str "..") := by
          rw [List.getLast?_replicate]
          simp
        rw [if_neg (fun hx => hx.2 hlast2), if_pos rfl, ← List.replicate_succ']
    rw [List.replicate_succ, List.foldl_cons, hstep, ih (i + 1)]
    congr 1
    omega

end NodePath

namespace LocalPath

/-- No two consecutive slashes (the shape on which the separator-cleaning
regexes are the identity). -/
def NoDupSlash (s : Str) : Prop := List.Chain' (fun a b => ¬(a = '/' ∧ b = '/')) s

theorem noDupSlash_of_no_slash (s : Str) (h : ∀ a ∈ s, a ≠ '/') : NoDupSlash s := by
  induction s with
  | nil => exact List.chain'_nil
  | cons a rest ih =>
    rw [NoDupSlash, List.chain'_cons']
    refine ⟨fun y _ hx => (h a (List.mem_cons_self a rest)) hx.1,
      ih (fun x hx => h x (List.mem_cons_of_mem a hx))⟩

theorem collapseAux_id (s : Str) : ∀ (colonish : Bool) (seen : Nat),
    NoDupSlash s →
    (s.head? = some '/' → seen < (if colonish then 2 else 1)) →
    collapseAux colonish seen s = s := by
  induction s with
  | nil =>
    intro _ _ _ _
    rfl
  | cons c rest ih =>
    intro colonish seen hch hhd
    rw [NoDupSlash, List.chain'_cons'] at hch
    obtain ⟨hrel, hch2⟩ := hch
    by_cases hc : c = '/'
    · subst hc
      unfold collapseAux
      rw [if_pos rfl, if_pos (hhd rfl)]
      congr 1
      apply ih colonish (seen + 1) hch2
      intro hx
      exact absurd (And.intro rfl rfl) (hrel '/' (Option.mem_def.mpr hx))
    · unfold collapseAux
      rw [if_neg hc]
      congr 1
      apply ih _ 0 hch2
      intro _
      split <;> omega

theorem collapseSlashRuns_id (s : Str) (h : NoDupSlash s) : collapseSlashRuns s = s :=
  collapseAux_id s true 0 h (fun _ => by simp)

theorem replaceDoubleSlash_id (s : Str) (h : NoDupSlash s) : replaceDoubleSlash s = s := by
  induction s with
  | nil => rfl
  | cons c1 rest ih =>
    cases rest with
    | nil => rfl
    | cons c2 rest2 =>
      rw [NoDupSlash, List.chain'_cons'] at h
      obtain ⟨hrel, h2⟩ := h
      have hne : ¬(c1 = '/' ∧ c2 = '/') := hrel c2 rfl
      unfold replaceDoubleSlash
      rw [if_neg hne]
      congr 1
      exact ih h2

theorem map_backslash_id (s : Str) (h : '\\' ∉ s) :
    s.map (fun c => if c = '\\' then '/' else c) = s := by
  induction s with
  | nil => rfl
  | cons a rest ih =>
    have ha : a ≠ '\\' := fun hx => h (hx ▸ List.mem_cons_self a rest)
    simp only [List.map_cons, if_neg ha, ih (fun hx => h (List.mem_cons_of_mem a hx))]

theorem cleanSeparatorPosix_id (s : Str) (hb : '\\' ∉ s) (hch : NoDupSlash s) :
    cleanSeparatorPosix s = s := by
  have h1 : collapseSlashRuns (s.map (fun c => if c = '\\' then '/' else c)) = s := by
    rw [map_backslash_id s hb]
    exact collapseSlashRuns_id s hch
  unfold cleanSeparatorPosix
  simp only [h1]
  split_ifs with hh
  · exact replaceDoubleSlash_id s hch
  · rfl

end LocalPath

theorem jsCharToUpper_ne_nil (c : Char) : jsCharToUpper c ≠ [] := by
  unfold jsCharToUpper
  split_ifs <;> simp

theorem jsToUpper_cons (c : Char) (t : Str) :
    jsToUpper (c :: t) = jsCharToUpper c ++ jsToUpper t := by
  simp [jsToUpper]

theorem jsToUpper_eq_nil_iff (s : Str) : jsToUpper s = [] ↔ s = [] := by
  cases s with
  | nil => simp [jsToUpper]
  | cons c t =>
    simp only [jsToUpper_cons]
    constructor
    · intro hx
      exact absurd (List.append_eq_nil.mp hx).1 (jsCharToUpper_ne_nil c)
    · intro hx
      exact absurd hx (by simp)

theorem jsCharToUpper_slash : jsCharToUpper '/' = ['/'] := rfl

namespace NodePath

theorem joinSegs_append_last (gs : List Str) (g : Str) (hne : gs ≠ []) :
    joinSegs '/' (gs ++ [g]) = joinSegs '/' gs ++ '/' :: g := by
  induction gs with
  | nil => exact absurd rfl hne
  | cons a gs2 ih =>
    cases gs2 with
    | nil => rfl
    | cons b gs3 =>
      have h1 : joinSegs '/' ((a :: b :: gs3) ++ [g]) =
          a ++ '/' :: joinSegs '/' ((b :: gs3) ++ [g]) := rfl
      have h2 : joinSegs '/' (a :: b :: gs3) = a ++ '/' :: joinSegs '/' (b :: gs3) := rfl
      rw [h1, ih (by simp), h2]
      simp

theorem joinSegs_mem_chars (gs : List Str) :
    ∀ x ∈ joinSegs '/' gs, x = '/' ∨ ∃ g ∈ gs, x ∈ g := by
  induction gs with
  | nil =>
    intro x hx
    simp [joinSegs] at hx
  | cons g gs2 ih =>
    cases gs2 with
    | nil =>
      intro x hx
      right
      exact ⟨g, List.mem_cons_self g [], hx⟩
    | cons g2 gs3 =>
      intro x hx
      have hj : joinSegs '/' (g :: g2 :: gs3) = g ++ '/' :: joinSegs '/' (g2 :: gs3) := rfl
      rw [hj] at hx
      rcases List.mem_append.mp hx with h1 | h2
      · right
        exact ⟨g, List.mem_cons_self g _, h1⟩
      · rcases List.mem_cons.mp h2 with h3 | h4
        · left
          exact h3
        · rcases ih x h4 with h5 | ⟨g0, hg0, hxg⟩
          · left
            exact h5
          · right
            exact ⟨g0, List.mem_cons_of_mem g hg0, hxg⟩

theorem joinSegs_head_ne_slash (gs : List Str)
    (h : ∀ g ∈ gs, g ≠ [] ∧ '/' ∉ g) (hne : gs ≠ []) :
    ∀ x, (joinSegs '/' gs).head? = some x → x ≠ '/' := by
  cases gs with
  | nil => exact absurd rfl hne
  | cons g gs2 =>
    intro x hx
    have hg := h g (List.mem_cons_self g _)
    have hgx : x ∈ g := by
      cases gs2 with
      | nil => exact List.mem_of_mem_head? (Option.mem_def.mpr hx)
      | cons g2 gs3 =>
        have hj : joinSegs '/' (g :: g2 :: gs3) = g ++ '/' :: joinSegs '/' (g2 :: gs3) := rfl
        rw [hj] at hx
        cases g with
        | nil => exact absurd rfl hg.1
        | cons c gt =>
          simp only [List.cons_append, List.head?_cons, Option.some.injEq] at hx
          exact hx ▸ List.mem_cons_self c gt
    exact fun hc => hg.2 (hc ▸ hgx)

theorem joinSegs_noDupSlash (gs : List Str) (h : ∀ g ∈ gs, g ≠ [] ∧ '/' ∉ g) :
    LocalPath.NoDupSlash (joinSegs '/' gs) := by
  induction gs with
  | nil => exact List.chain'_nil
  | cons g gs2 ih =>
    have hg := h g (List.mem_cons_self g _)
    have hgchain : LocalPath.NoDupSlash g :=
      LocalPath.noDupSlash_of_no_slash g (fun a ha hc => hg.2 (hc ▸ ha))
    cases gs2 with
    | nil => exact hgchain
    | cons g2 gs3 =>
      have hj : joinSegs '/' (g :: g2 :: gs3) = g ++ '/' :: joinSegs '/' (g2 :: gs3) := rfl
      rw [LocalPath.NoDupSlash, hj]
      have htail : List.Chain' (fun a b => ¬(a = '/' ∧ b = '/')) ('/' :: joinSegs '/' (g2 :: gs3)) := by
        rw [List.chain'_cons']
        constructor
        · intro y hy hcon
          exact joinSegs_head_ne_slash (g2 :: gs3)
            (fun x hx => h x (List.mem_cons_of_mem g hx)) (by simp) y
            (Option.mem_def.mp hy) hcon.2
        · exact ih (fun x hx => h x (List.mem_cons_of_mem g hx))
      refine List.Chain'.append hgchain htail ?_
      intro x hx y hy hcon
      exact hg.2 (hcon.1 ▸ List.mem_of_mem_getLast? hx)

theorem mkS_backslash_not_mem (abs trail : Bool) (rs : List Str)
    (h : ∀ g ∈ rs, SegOk g) : '\\' ∉ mkS abs rs trail := by
  intro hx
  unfold mkS at hx
  rcases List.mem_append.mp hx with h1 | h2
  · rcases List.mem_append.mp h1 with h3 | h4
    · cases abs with
      | true => simp at h3
      | false => simp at h3
    · rcases joinSegs_mem_chars rs '\\' h4 with h5 | ⟨g, hg, hmem⟩
      · exact absurd h5 (by decide)
      · exact (h g hg).2.2 hmem
  · cases trail with
    | true => simp at h2
    | false => simp at h2

end NodePath

theorem takeWhile_all {p : Char → Bool} (l : Str) (h : ∀ x ∈ l, p x = true) :
    l.takeWhile p = l := by
  induction l with
  | nil => rfl
  | cons a rest ih =>
    rw [List.takeWhile_cons, if_pos (h a (List.mem_cons_self a rest)),
      ih (fun x hx => h x (List.mem_cons_of_mem a hx))]

theorem takeWhile_append_stop {p : Char → Bool} (a : Str) (y : Char) (b : Str)
    (ha : ∀ x ∈ a, p x = true) (hy : p y = false) :
    (a ++ y :: b).takeWhile p = a := by
  induction a with
  | nil => simp [List.takeWhile_cons, hy]
  | cons c rest ih =>
    rw [List.cons_append, List.takeWhile_cons, if_pos (ha c (List.mem_cons_self c rest)),
      ih (fun x hx => ha x (List.mem_cons_of_mem c hx))]

theorem dropWhile_of_head_neg {p : Char → Bool} (l : Str)
    (h : ∀ x, l.head? = some x → p x = false) : l.dropWhile p = l := by
  cases l with
  | nil => rfl
  | cons a rest => rw [List.dropWhile_cons, if_neg (by simp [h a rfl])]

namespace NodePath

theorem posixParse_mkS (abs trail : Bool) (rs2 : List Str) (g : Str)
    (h : ∀ x ∈ rs2 ++ [g], SegOk x) :
    posixParse (mkS abs (rs2 ++ [g]) trail) =
      ((if abs then ['/'] else []),
       (if rs2 = [] then (if abs then ['/'] else []) else mkS abs rs2 false),
       g) := by
  have hall : ∀ x ∈ rs2 ++ [g], x ≠ [] ∧ '/' ∉ x := fun x hx => ⟨(h x hx).1, (h x hx).2.1⟩
  have hgseg : g ≠ [] ∧ '/' ∉ g := hall g (by simp)
  have hne : rs2 ++ [g] ≠ [] := by simp
  have hjoin_ne : joinSegs '/' (rs2 ++ [g]) ≠ [] :=
    joinSegs_ne_nil _ (fun x hx => (hall x hx).1) hne
  have hs_ne : mkS abs (rs2 ++ [g]) trail ≠ [] := by
    unfold mkS
    intro hx
    rcases List.append_eq_nil.mp hx with ⟨h1, _⟩
    rcases List.append_eq_nil.mp h1 with ⟨_, h3⟩
    exact hjoin_ne h3
  have hrootEnd : (if (mkS abs (rs2 ++ [g]) trail).head? = some '/' then 1 else 0) =
      (if abs then 1 else 0) := by
    cases abs with
    | true =>
      have hh : (mkS true (rs2 ++ [g]) trail).head? = some '/' := by
        unfold mkS
        simp
      rw [hh]
      simp
    | false =>
      have hh : ¬ ((mkS false (rs2 ++ [g]) trail).head? = some '/') := by
        intro hx
        have hx2 : (joinSegs '/' (rs2 ++ [g])).head? = some '/' := by
          unfold mkS at hx
          rw [if_neg (by simp), List.nil_append,
            List.head?_append_of_ne_nil _ hjoin_ne] at hx
          exact hx
        exact joinSegs_head_ne_slash _ hall hne '/' hx2 rfl
      rw [if_neg hh]
      simp
  have htake : (mkS abs (rs2 ++ [g]) trail).take (if abs then 1 else 0) =
      (if abs then ['/'] else []) := by
    cases abs with
    | true =>
      unfold mkS
      simp
    | false => simp
  have hdrop : (mkS abs (rs2 ++ [g]) trail).drop (if abs then 1 else 0) =
      joinSegs '/' (rs2 ++ [g]) ++ (if trail then ['/'] else []) := by
    cases abs with
    | true =>
      unfold mkS
      simp
    | false =>
      unfold mkS
      simp
  have hJr_ne : (joinSegs '/' (rs2 ++ [g])).reverse ≠ [] := by
    simpa using hjoin_ne
  have hdropJr : ∀ p : Char → Bool, (∀ x, (joinSegs '/' (rs2 ++ [g])).getLast? = some x →
      p x = false) →
      ((joinSegs '/' (rs2 ++ [g])).reverse).dropWhile p = (joinSegs '/' (rs2 ++ [g])).reverse := by
    intro p hp
    apply dropWhile_of_head_neg
    intro x hx
    exact hp x (by rwa [List.head?_reverse] at hx)
  have hb1 : ((joinSegs '/' (rs2 ++ [g]) ++ (if trail then ['/'] else [])).reverse.dropWhile
      (fun c => decide (c = '/'))).reverse = joinSegs '/' (rs2 ++ [g]) := by
    have hlast : ∀ x, (joinSegs '/' (rs2 ++ [g])).getLast? = some x →
        (decide (x = '/') : Bool) = false := by
      intro x hx
      have := joinSegs_getLast_ne_slash _ hall hne x hx
      simp [this]
    rw [List.reverse_append]
    cases trail with
    | true =>
      rw [show (if (true : Bool) = true then ['/'] else ([] : Str)) = ['/'] from rfl]
      rw [show (['/'] : Str).reverse = ['/'] from rfl, List.singleton_append,
        List.dropWhile_cons, if_pos (by simp), hdropJr _ hlast, List.reverse_reverse]
    | false =>
      rw [show (if (false : Bool) = true then ['/'] else ([] : Str)) = [] from rfl]
      rw [List.reverse_nil, List.nil_append, hdropJr _ hlast, List.reverse_reverse]
  unfold posixParse
  rw [if_neg hs_ne]
  unfold parseSplit
  rw [hrootEnd, htake, hdrop, hb1]
  rw [if_neg hjoin_ne]
  cases hrs2 : rs2 with
  | nil =>
    subst hrs2
    have hjoin1 : joinSegs '/' ([] ++ [g]) = g := rfl
    rw [hjoin1]
    have hbase : ((g.reverse.takeWhile (fun c => !(decide (c = '/')))).reverse) = g := by
      rw [takeWhile_all (p := fun c => !(decide (c = '/'))) g.reverse
        (fun x hx => by
          have hxg : x ∈ g := List.mem_reverse.mp hx
          have hxne : x ≠ '/' := fun hc => hgseg.2 (hc ▸ hxg)
          simp [hxne]),
        List.reverse_reverse]
    rw [hbase]
    simp
  | cons r0 rs3 =>
    have hrs2ne : rs2 ≠ [] := by rw [hrs2]; simp
    rw [← hrs2]
    have hjoin2 : joinSegs '/' (rs2 ++ [g]) = joinSegs '/' rs2 ++ '/' :: g :=
      joinSegs_append_last rs2 g hrs2ne
    have hrev : (joinSegs '/' (rs2 ++ [g])).reverse =
        g.reverse ++ '/' :: (joinSegs '/' rs2).reverse := by
      rw [hjoin2, List.reverse_append]
      simp
    have hbase : (((joinSegs '/' (rs2 ++ [g])).reverse.takeWhile
        (fun c => !(decide (c = '/')))).reverse) = g := by
      rw [hrev, takeWhile_append_stop (p := fun c => !(decide (c = '/'))) g.reverse '/' _
        (fun x hx => by
          have hxg : x ∈ g := List.mem_reverse.mp hx
          have hxne : x ≠ '/' := fun hc => hgseg.2 (hc ▸ hxg)
          simp [hxne])
        (by simp), List.reverse_reverse]
    rw [hbase]
    have hjoin2_len : (joinSegs '/' (rs2 ++ [g])).length =
        (joinSegs '/' rs2).length + 1 + g.length := by
      rw [hjoin2]
      simp
      omega
    have hlen_ne : ¬ (g.length = (joinSegs '/' (rs2 ++ [g])).length) := by
      rw [hjoin2_len]
      omega
    rw [if_neg hlen_ne]
    have hdir : (mkS abs (rs2 ++ [g]) trail).take
        ((if abs then 1 else 0) + (joinSegs '/' (rs2 ++ [g])).length - g.length - 1) =
        mkS abs rs2 false := by
      have harr : mkS abs (rs2 ++ [g]) trail =
          ((if abs then ['/'] else []) ++ joinSegs '/' rs2) ++
            ('/' :: g ++ (if trail then ['/'] else [])) := by
        unfold mkS
        rw [hjoin2]
        simp
      have hlen : ((if abs then ['/'] else ([] : Str)) ++ joinSegs '/' rs2).length =
          (if abs then 1 else 0) + (joinSegs '/' (rs2 ++ [g])).length - g.length - 1 := by
        rw [hjoin2_len, List.length_append]
        cases abs with
        | true =>
          simp
          omega
        | false => simp
      rw [harr, ← hlen, List.take_left]
      unfold mkS
      simp
    rw [hdir]
    rw [if_neg hrs2ne]

end NodePath

namespace NodePath

theorem mkS_false_trail_eq (abs : Bool) (rs : List Str) :
    mkS abs rs false = (if abs then ['/'] else []) ++ joinSegs '/' rs := by
  unfold mkS
  simp

theorem mkS_true_false_eq (rs : List Str) : mkS true rs false = '/' :: joinSegs '/' rs := by
  unfold mkS
  simp

theorem mkS_false_false_eq (rs : List Str) : mkS false rs false = joinSegs '/' rs := by
  unfold mkS
  simp

theorem mkS_getLast_false (rs : List Str) (abs : Bool)
    (h : ∀ g ∈ rs, g ≠ []) (hne : rs ≠ []) :
    (mkS abs rs false).getLast? = (joinSegs '/' rs).getLast? := by
  rw [mkS_false_trail_eq]
  exact List.getLast?_append_of_ne_nil _ (joinSegs_ne_nil rs h hne)

theorem mkS_noDupSlash (abs trail : Bool) (rs : List Str)
    (h : ∀ g ∈ rs, SegOk g) (hne : rs ≠ []) : LocalPath.NoDupSlash (mkS abs rs trail) := by
  have hall : ∀ g ∈ rs, g ≠ [] ∧ '/' ∉ g := fun g hg => ⟨(h g hg).1, (h g hg).2.1⟩
  have hJ : LocalPath.NoDupSlash (joinSegs '/' rs) := joinSegs_noDupSlash rs hall
  have hAJ : LocalPath.NoDupSlash ((if abs then ['/'] else []) ++ joinSegs '/' rs) := by
    cases abs with
    | true =>
      refine List.Chain'.append (by simp) hJ ?_
      intro x hx y hy hcon
      exact joinSegs_head_ne_slash rs hall hne y (Option.mem_def.mp hy) hcon.2
    | false => simpa using hJ
  unfold mkS
  cases trail with
  | true =>
    refine List.Chain'.append hAJ (by simp) ?_
    intro x hx y hy hcon
    have hx2 : (joinSegs '/' rs).getLast? = some x := by
      rwa [List.getLast?_append_of_ne_nil _ (joinSegs_ne_nil rs (fun g hg => (hall g hg).1) hne)]
        at hx
    exact joinSegs_getLast_ne_slash rs hall hne x hx2 hcon.1
  | false => simpa using hAJ

theorem jsToUpper_mkS_ne_root (abs : Bool) (rs : List Str)
    (hne2 : joinSegs '/' rs ≠ []) :
    jsToUpper (mkS abs rs false) ≠ jsToUpper (if abs then ['/'] else []) := by
  cases abs with
  | true =>
    rw [mkS_true_false_eq, if_pos rfl, jsToUpper_cons, jsCharToUpper_slash]
    have hupper : jsToUpper ['/'] = ['/'] := rfl
    rw [hupper]
    intro hx
    have hlen := congrArg List.length hx
    simp at hlen
    exact hne2 ((jsToUpper_eq_nil_iff _).mp hlen)
  | false =>
    rw [mkS_false_false_eq, if_neg (by simp)]
    intro hx
    exact hne2 ((jsToUpper_eq_nil_iff _).mp (by simpa using hx))

end NodePath

namespace NodePath

theorem pathFromJsPath_posix_seg (abs : Bool) (rs2 : List Str) (g : Str)
    (h : ∀ x ∈ rs2 ++ [g], SegOk x) :
    LocalPath.pathFromJsPath '/' LocalPath.cleanSeparatorPosix (fun _ => false)
      ((if abs then ['/'] else []),
       (if rs2 = [] then (if abs then ['/'] else []) else mkS abs rs2 false),
       g) LocalPathType.RELATIVE =
      .ok ⟨LocalPath.classify '/' (mkS abs (rs2 ++ [g]) false) LocalPathType.RELATIVE,
           (if abs then ['/'] else []), mkS abs (rs2 ++ [g]) false⟩ := by
  have hg : SegOk g := h g (by simp)
  have hgne : g ≠ [] := hg.1
  have hall : ∀ x ∈ rs2 ++ [g], x ≠ [] ∧ '/' ∉ x := fun x hx => ⟨(h x hx).1, (h x hx).2.1⟩
  have hjoin_ne : joinSegs '/' (rs2 ++ [g]) ≠ [] :=
    joinSegs_ne_nil _ (fun x hx => (hall x hx).1) (by simp)
  have hendNew : LocalPath.endsWithChar (mkS abs (rs2 ++ [g]) false) '/' = false := by
    unfold LocalPath.endsWithChar
    rw [mkS_getLast_false _ abs (fun x hx => (hall x hx).1) (by simp)]
    cases hL : (joinSegs '/' (rs2 ++ [g])).getLast? with
    | none => simp
    | some x =>
      have hxne := joinSegs_getLast_ne_slash _ hall (by simp) x hL
      simp [hxne]
  have hcheck : ∀ r : Str, LocalPath.checkPathCharacters (fun _ => false)
      ((mkS abs (rs2 ++ [g]) false).drop r.length) = .ok () := by
    intro r
    unfold LocalPath.checkPathCharacters
    rw [List.find?_eq_none.mpr (fun x _ => by simp)]
  by_cases hrs2 : rs2 = []
  · subst hrs2
    cases abs with
    | true =>
      have hUne : jsToUpper (['/'] : Str) ≠ jsToUpper (mkS true ([] ++ [g]) false) :=
        fun hx => jsToUpper_mkS_ne_root true ([] ++ [g]) hjoin_ne hx.symm
      have hc1 : ¬ (jsToUpper (['/'] : Str) ≠ jsToUpper (mkS true ([] ++ [g]) false) ∧
          LocalPath.endsWithChar (mkS true ([] ++ [g]) false) '/' = true) := by
        intro hc
        rw [hendNew] at hc
        exact absurd hc.2 (by simp)
      have hc2 : ¬ (jsToUpper (['/'] : Str) = jsToUpper (mkS true ([] ++ [g]) false) ∧
          (['/'] : Str).length > 2 ∧
          ¬ LocalPath.endsWithChar (mkS true ([] ++ [g]) false) '/' = true) :=
        fun hc => hUne hc.1
      have hbool : (LocalPath.endsWithChar ['/'] '/' || decide (List.length g = 0) ||
          decide ((['/'] : Str).length = 0) ||
          decide (jsToUpper ['/'] = jsToUpper ['/'])) = true := by
        simp [LocalPath.endsWithChar]
      have hmk2 : (['/'] : Str) ++ g = mkS true ([] ++ [g]) false := by
        rw [mkS_true_false_eq]
        rfl
      unfold LocalPath.pathFromJsPath
      dsimp only
      rw [if_pos rfl, if_pos rfl]
      rw [show LocalPath.cleanSeparatorPosix ['/'] = ['/'] from rfl]
      rw [hbool]
      rw [if_pos rfl]
      rw [hmk2]
      rw [if_neg hc1, if_neg hc2]
      dsimp only
      rw [hcheck ['/']]
      rfl
    | false =>
      have hUne : jsToUpper ([] : Str) ≠ jsToUpper (mkS false ([] ++ [g]) false) :=
        fun hx => jsToUpper_mkS_ne_root false ([] ++ [g]) hjoin_ne hx.symm
      have hc1 : ¬ (jsToUpper ([] : Str) ≠ jsToUpper (mkS false ([] ++ [g]) false) ∧
          LocalPath.endsWithChar (mkS false ([] ++ [g]) false) '/' = true) := by
        intro hc
        rw [hendNew] at hc
        exact absurd hc.2 (by simp)
      have hc2 : ¬ (jsToUpper ([] : Str) = jsToUpper (mkS false ([] ++ [g]) false) ∧
          ([] : Str).length > 2 ∧
          ¬ LocalPath.endsWithChar (mkS false ([] ++ [g]) false) '/' = true) :=
        fun hc => hUne hc.1
      have hbool : (LocalPath.endsWithChar [] '/' || decide (List.length g = 0) ||
          decide (([] : Str).length = 0) ||
          decide (jsToUpper [] = jsToUpper [])) = true := by
        simp
      have hmk2 : ([] : Str) ++ g = mkS false ([] ++ [g]) false := by
        rw [mkS_false_false_eq]
        rfl
      unfold LocalPath.pathFromJsPath
      dsimp only
      rw [if_pos rfl]
      rw [show (if (false = true) then (['/'] : Str) else []) = [] by simp]
      rw [show LocalPath.cleanSeparatorPosix [] = [] from rfl]
      rw [hbool]
      rw [if_pos rfl]
      rw [hmk2]
      rw [if_neg hc1, if_neg hc2]
      dsimp only
      rw [hcheck []]
      rfl
  · have hrs2all : ∀ x ∈ rs2, SegOk x := fun x hx => h x (List.mem_append_left _ hx)
    have hjoin2_ne : joinSegs '/' rs2 ≠ [] :=
      joinSegs_ne_nil _ (fun x hx => (hrs2all x hx).1) hrs2
    have hdireq : LocalPath.cleanSeparatorPosix (mkS abs rs2 false) = mkS abs rs2 false :=
      LocalPath.cleanSeparatorPosix_id _ (mkS_backslash_not_mem abs false rs2 hrs2all)
        (mkS_noDupSlash abs false rs2 hrs2all hrs2)
    have hendDir : LocalPath.endsWithChar (mkS abs rs2 false) '/' = false := by
      unfold LocalPath.endsWithChar
      rw [mkS_getLast_false _ abs (fun x hx => (hrs2all x hx).1) hrs2]
      cases hL : (joinSegs '/' rs2).getLast? with
      | none => simp
      | some x =>
        have hxne := joinSegs_getLast_ne_slash _
          (fun y hy => ⟨(hrs2all y hy).1, (hrs2all y hy).2.1⟩) hrs2 x hL
        simp [hxne]
    have hdirne : mkS abs rs2 false ≠ [] := by
      rw [mkS_false_trail_eq]
      intro hx
      exact hjoin2_ne (List.append_eq_nil.mp hx).2
    have hUdir : ¬ (jsToUpper (mkS abs rs2 false) = jsToUpper (if abs then ['/'] else [])) :=
      jsToUpper_mkS_ne_root abs rs2 hjoin2_ne
    have hnp0 : mkS abs rs2 false ++ '/' :: g = mkS abs (rs2 ++ [g]) false := by
      rw [mkS_false_trail_eq, mkS_false_trail_eq, joinSegs_append_last rs2 g hrs2,
        List.append_assoc]
    have hUne : jsToUpper (if abs then ['/'] else ([] : Str)) ≠
        jsToUpper (mkS abs (rs2 ++ [g]) false) :=
      fun hx => jsToUpper_mkS_ne_root abs (rs2 ++ [g]) hjoin_ne hx.symm
    have hc1 : ¬ (jsToUpper (if abs then ['/'] else ([] : Str)) ≠
        jsToUpper (mkS abs (rs2 ++ [g]) false) ∧
        LocalPath.endsWithChar (mkS abs (rs2 ++ [g]) false) '/' = true) := by
      intro hc
      rw [hendNew] at hc
      exact absurd hc.2 (by simp)
    have hc2 : ¬ (jsToUpper (if abs then ['/'] else ([] : Str)) =
        jsToUpper (mkS abs (rs2 ++ [g]) false) ∧
        (if abs then ['/'] else ([] : Str)).length > 2 ∧
        ¬ LocalPath.endsWithChar (mkS abs (rs2 ++ [g]) false) '/' = true) :=
      fun hc => hUne hc.1
    have hbool : (LocalPath.endsWithChar (mkS abs rs2 false) '/' ||
        decide (List.length g = 0) || decide ((mkS abs rs2 false).length = 0) ||
        decide (jsToUpper (mkS abs rs2 false) = jsToUpper (if abs then ['/'] else []))) =
        false := by
      rw [hendDir]
      simp [hgne, hdirne, hUdir]
    have hroot1eq : LocalPath.cleanSeparatorPosix (if abs then ['/'] else []) =
        (if abs then ['/'] else []) := by
      cases abs with
      | true => rfl
      | false => rfl
    unfold LocalPath.pathFromJsPath
    dsimp only
    rw [if_neg hrs2, hdireq, hroot1eq]
    rw [hbool]
    rw [if_neg (by simp : ¬ ((false : Bool) = true))]
    rw [hnp0]
    rw [if_neg hc1, if_neg hc2]
    dsimp only
    rw [hcheck (if abs then ['/'] else [])]
    rfl
end NodePath

namespace NodePath

theorem parsePosixE_mkS (abs trail : Bool) (rs2 : List Str) (g : Str)
    (h : ∀ x ∈ rs2 ++ [g], SegOk x) :
    LocalPath.parsePosixE (mkS abs (rs2 ++ [g]) trail) =
      .ok ⟨LocalPath.classify '/' (mkS abs (rs2 ++ [g]) false) LocalPathType.RELATIVE,
           (if abs then ['/'] else []), mkS abs (rs2 ++ [g]) false⟩ := by
  unfold LocalPath.parsePosixE
  rw [posixParse_mkS abs trail rs2 g h]
  exact pathFromJsPath_posix_seg abs rs2 g h

theorem parsePosix_mkS (abs trail : Bool) (rs2 : List Str) (g : Str)
    (h : ∀ x ∈ rs2 ++ [g], SegOk x) :
    LocalPath.parsePosix (mkS abs (rs2 ++ [g]) trail) =
      ⟨LocalPath.classify '/' (mkS abs (rs2 ++ [g]) false) LocalPathType.RELATIVE,
       (if abs then ['/'] else []), mkS abs (rs2 ++ [g]) false⟩ := by
  unfold LocalPath.parsePosix
  rw [parsePosixE_mkS abs trail rs2 g h]

theorem parsePosix_mkS_ne_nil (abs trail : Bool) (rs : List Str)
    (h : ∀ x ∈ rs, SegOk x) (hne : rs ≠ []) :
    LocalPath.parsePosix (mkS abs rs trail) =
      ⟨LocalPath.classify '/' (mkS abs rs false) LocalPathType.RELATIVE,
       (if abs then ['/'] else []), mkS abs rs false⟩ := by
  obtain ⟨rs2, g, hdecomp⟩ : ∃ rs2 g, rs = rs2 ++ [g] :=
    ⟨rs.dropLast, rs.getLast hne, (List.dropLast_append_getLast hne).symm⟩
  subst hdecomp
  exact parsePosix_mkS abs trail rs2 g h

theorem classify_slash_head (s : Str) (d : LocalPathType) (hh : s.head? = some '/') :
    LocalPath.classify '/' s d = LocalPathType.ABSOLUTE := by
  unfold LocalPath.classify
  have htake : ¬ (s.take 2 = str "\\\\") := by
    cases s with
    | nil => simp at hh
    | cons c rest =>
      simp at hh
      subst hh
      cases rest <;> intro hx <;> simp [str] at hx
  rw [if_neg htake, if_pos (Or.inl hh)]

theorem parsePosix_mkAbs (gs : List Str) (h : ∀ x ∈ gs, SegOk x) :
    LocalPath.parsePosix (mkAbs gs) = ⟨LocalPathType.ABSOLUTE, ['/'], mkAbs gs⟩ := by
  cases hgs : gs with
  | nil =>
    have : mkAbs ([] : List Str) = ['/'] := rfl
    rw [this]
    decide
  | cons g0 gs2 =>
    rw [← hgs]
    have hne : gs ≠ [] := by rw [hgs]; simp
    unfold mkAbs
    rw [parsePosix_mkS_ne_nil true false gs h hne]
    rw [classify_slash_head _ _ (by rw [mkS_true_false_eq]; rfl)]
    simp

theorem compareToLoop_self (s : Str) : LocalPath.compareToLoop s s = 0 := by
  induction s with
  | nil => rfl
  | cons c t ih =>
    unfold LocalPath.compareToLoop
    rw [if_pos rfl]
    exact ih

theorem equalsL_refl (p : LocalPath) : p.equalsL p = true := by
  unfold LocalPath.equalsL LocalPath.compareTo
  rw [compareToLoop_self]
  rfl

theorem commonPrefixLen_le_left (a b : List Str) : commonPrefixLen a b ≤ a.length := by
  induction a generalizing b with
  | nil => cases b <;> simp [commonPrefixLen]
  | cons x xs ih =>
    cases b with
    | nil => simp [commonPrefixLen]
    | cons y ys =>
      unfold commonPrefixLen
      split_ifs
      · simpa using ih ys
      · simp

theorem commonPrefixLen_le_right (a b : List Str) : commonPrefixLen a b ≤ b.length := by
  induction a generalizing b with
  | nil => cases b <;> simp [commonPrefixLen]
  | cons x xs ih =>
    cases b with
    | nil => simp [commonPrefixLen]
    | cons y ys =>
      unfold commonPrefixLen
      split_ifs
      · simpa using ih ys
      · simp

theorem commonPrefixLen_take (a b : List Str) :
    a.take (commonPrefixLen a b) = b.take (commonPrefixLen a b) := by
  induction a generalizing b with
  | nil => cases b <;> simp [commonPrefixLen]
  | cons x xs ih =>
    cases b with
    | nil => simp [commonPrefixLen]
    | cons y ys =>
      unfold commonPrefixLen
      split_ifs with hxy
      · subst hxy
        simp [List.take_succ_cons, ih ys]
      · simp

theorem commonPrefixLen_full (a b : List Str) (hla : commonPrefixLen a b = a.length)
    (hlb : commonPrefixLen a b = b.length) : a = b := by
  have h := commonPrefixLen_take a b
  rw [hla, List.take_length, hla.symm.trans hlb, List.take_length] at h
  exact h

end NodePath

namespace NodePath

theorem posixResolveAux_skip (rest : List Str) (acc : Str) :
    posixResolveAux ([] :: rest) acc = posixResolveAux rest acc := by
  show (if ([] : Str) = [] then posixResolveAux rest acc
    else if ([] : Str).head? = some '/' then (([] : Str) ++ '/' :: acc, true)
    else posixResolveAux rest (([] : Str) ++ '/' :: acc)) = posixResolveAux rest acc
  rw [if_pos rfl]

theorem posixResolveAux_abs (s : Str) (rest : List Str) (acc : Str)
    (hne : s ≠ []) (habs : s.head? = some '/') :
    posixResolveAux (s :: rest) acc = (s ++ '/' :: acc, true) := by
  unfold posixResolveAux
  rw [if_neg hne, if_pos habs]

theorem posixResolveAux_rel (s : Str) (rest : List Str) (acc : Str)
    (hne : s ≠ []) (hrel : ¬ s.head? = some '/') :
    posixResolveAux (s :: rest) acc = posixResolveAux rest (s ++ '/' :: acc) := by
  show (if s = [] then posixResolveAux rest acc
    else if s.head? = some '/' then (s ++ '/' :: acc, true)
    else posixResolveAux rest (s ++ '/' :: acc)) = posixResolveAux rest (s ++ '/' :: acc)
  rw [if_neg hne, if_neg hrel]

theorem mkAbs_ne_nil (gs : List Str) : mkAbs gs ≠ [] := by
  rw [show mkAbs gs = '/' :: joinSegs '/' gs from mkS_true_false_eq gs]
  simp

theorem mkAbs_head (gs : List Str) : (mkAbs gs).head? = some '/' := by
  rw [show mkAbs gs = '/' :: joinSegs '/' gs from mkS_true_false_eq gs]
  rfl

theorem splitSegs_cons_sep (c : Char) (rest : Str) :
    splitSegs c (c :: rest) = [] :: splitSegs c rest := by
  show (match splitSegs c rest with
    | [] => ([] : List Str)
    | s :: ss => if c = c then [] :: s :: ss else (c :: s) :: ss) = [] :: splitSegs c rest
  cases hs : splitSegs c rest with
  | nil => exact absurd hs (splitSegs_ne_nil c rest)
  | cons t ts =>
    show (if c = c then [] :: t :: ts else (c :: t) :: ts) = [] :: t :: ts
    rw [if_pos rfl]

theorem splitSegs_mkAbs_append (gs1 : List Str) (tail : Str)
    (h1 : ∀ g ∈ gs1, g ≠ [] ∧ '/' ∉ g) :
    splitSegs '/' (mkAbs gs1 ++ '/' :: tail) =
      (if gs1 = [] then [[], []] else [] :: gs1) ++ splitSegs '/' tail := by
  rw [show mkAbs gs1 = '/' :: joinSegs '/' gs1 from mkS_true_false_eq gs1, List.cons_append]
  cases hgs : gs1 with
  | nil =>
    show splitSegs '/' ('/' :: ([] ++ '/' :: tail)) = _
    rw [List.nil_append, if_pos rfl, splitSegs_cons_sep, splitSegs_cons_sep]
    rfl
  | cons g0 gs2 =>
    rw [← hgs, if_neg (by rw [hgs]; simp)]
    have hsub := splitSegs_join_append gs1 tail (fun g hg => (h1 g hg).2)
      (by rw [hgs]; simp)
    show splitSegs '/' ('/' :: (joinSegs '/' gs1 ++ '/' :: tail)) = _
    rw [splitSegs_cons_sep, hsub]
    rfl

theorem dotStep_empty (allow : Bool) (res : List Str) : dotStep allow res [] = res := by
  unfold dotStep
  rw [if_pos (Or.inl rfl)]

theorem dotProcess_resolve_core (gs1 : List Str) (tail : Str)
    (h1 : ∀ g ∈ gs1, CanonSeg g) :
    dotProcess false (splitSegs '/' (mkAbs gs1 ++ '/' :: tail)) =
      List.foldl (dotStep false) gs1 (splitSegs '/' tail) := by
  have h1a : ∀ g ∈ gs1, g ≠ [] ∧ '/' ∉ g := fun g hg => ⟨(h1 g hg).1.1, (h1 g hg).1.2.1⟩
  rw [splitSegs_mkAbs_append gs1 tail h1a]
  unfold dotProcess
  rw [List.foldl_append]
  congr 1
  by_cases hgs : gs1 = []
  · subst hgs
    rfl
  · rw [if_neg hgs]
    rw [List.foldl_cons, dotStep_empty]
    rw [foldl_dotStep_canon false gs1
      (fun g hg => ⟨(h1 g hg).1.1, (h1 g hg).2.1, (h1 g hg).2.2⟩) []]
    rfl

theorem posixResolve_single (cwd : Str) (gs : List Str) (h : ∀ g ∈ gs, CanonSeg g) :
    posixResolve cwd [mkAbs gs] = mkAbs gs := by
  unfold posixResolve
  rw [show ([mkAbs gs].reverse ++ [cwd]) = [mkAbs gs, cwd] from by simp]
  rw [posixResolveAux_abs _ _ _ (mkAbs_ne_nil gs) (mkAbs_head gs)]
  dsimp only
  rw [if_pos rfl, Bool.not_true]
  rw [dotProcess_resolve_core gs [] h]
  rw [show splitSegs '/' [] = [[]] from rfl]
  rw [show List.foldl (dotStep false) gs [[]] = gs from by
    rw [List.foldl_cons, dotStep_empty]
    rfl]
  exact (mkS_true_false_eq gs).symm

theorem posixResolve_with_empty (cwd : Str) (gs : List Str) (h : ∀ g ∈ gs, CanonSeg g) :
    posixResolve cwd [mkAbs gs, []] = mkAbs gs := by
  unfold posixResolve
  rw [show ([mkAbs gs, ([] : Str)].reverse ++ [cwd]) = [[], mkAbs gs, cwd] from by simp]
  rw [posixResolveAux_skip, posixResolveAux_abs _ _ _ (mkAbs_ne_nil gs) (mkAbs_head gs)]
  dsimp only
  rw [if_pos rfl, Bool.not_true]
  rw [dotProcess_resolve_core gs [] h]
  rw [show splitSegs '/' [] = [[]] from rfl]
  rw [show List.foldl (dotStep false) gs [[]] = gs from by
    rw [List.foldl_cons, dotStep_empty]
    rfl]
  exact (mkS_true_false_eq gs).symm

theorem posixResolve_pair (cwd : Str) (gs1 : List Str) (k : Nat) (ts : List Str)
    (h1 : ∀ g ∈ gs1, CanonSeg g) (hts : ∀ g ∈ ts, CanonSeg g)
    (hk : k ≤ gs1.length)
    (hrne : List.replicate k (str "..") ++ ts ≠ []) :
    posixResolve cwd
      [mkAbs gs1, joinSegs '/' (List.replicate k (str "..") ++ ts)] =
      mkAbs (gs1.take (gs1.length - k) ++ ts) := by
  have hrelsok : ∀ g ∈ List.replicate k (str "..") ++ ts, g ≠ [] ∧ '/' ∉ g := by
    intro g hg
    rcases List.mem_append.mp hg with hg1 | hg2
    · rw [List.eq_of_mem_replicate hg1]
      exact ⟨by decide, by decide⟩
    · exact ⟨(hts g hg2).1.1, (hts g hg2).1.2.1⟩
  have hbne : joinSegs '/' (List.replicate k (str "..") ++ ts) ≠ [] :=
    joinSegs_ne_nil _ (fun g hg => (hrelsok g hg).1) hrne
  have hbhead : ¬ (joinSegs '/' (List.replicate k (str "..") ++ ts)).head? = some '/' := by
    intro hx
    exact joinSegs_head_ne_slash _ hrelsok hrne '/' hx rfl
  unfold posixResolve
  rw [show ([mkAbs gs1, joinSegs '/' (List.replicate k (str "..") ++ ts)].reverse ++ [cwd]) =
    [joinSegs '/' (List.replicate k (str "..") ++ ts), mkAbs gs1, cwd] from by simp]
  rw [posixResolveAux_rel _ _ _ hbne hbhead,
    posixResolveAux_abs _ _ _ (mkAbs_ne_nil gs1) (mkAbs_head gs1)]
  dsimp only
  rw [if_pos rfl, Bool.not_true]
  rw [dotProcess_resolve_core gs1 _ h1]
  rw [show (joinSegs '/' (List.replicate k (str "..") ++ ts) ++ ['/']) =
    joinSegs '/' (List.replicate k (str "..") ++ ts) ++ '/' :: [] from rfl]
  rw [splitSegs_join_append _ _ (fun g hg => (hrelsok g hg).2) hrne]
  rw [show splitSegs '/' [] = [[]] from rfl]
  rw [List.foldl_append, List.foldl_append]
  rw [foldl_dotStep_dotdots_pop gs1 k
    (fun g hg => (h1 g hg).2.2) hk]
  rw [foldl_dotStep_canon false ts
    (fun g hg => ⟨(hts g hg).1.1, (hts g hg).2.1, (hts g hg).2.2⟩)]
  rw [show List.foldl (dotStep false) (List.take (gs1.length - k) gs1 ++ ts) [[]] =
    List.take (gs1.length - k) gs1 ++ ts from by
    rw [List.foldl_cons, dotStep_empty]
    rfl]
  exact (mkS_true_false_eq _).symm

theorem filter_ne_nil_self (gs : List Str) (h : ∀ g ∈ gs, g ≠ []) :
    gs.filter (fun g => g ≠ []) = gs := by
  induction gs with
  | nil => rfl
  | cons g gs2 ih =>
    rw [List.filter_cons, if_pos (by simp [h g (List.mem_cons_self g gs2)]),
      ih (fun x hx => h x (List.mem_cons_of_mem g hx))]

theorem splitSegs_mkAbs_filter (gs : List Str) (h : ∀ g ∈ gs, g ≠ [] ∧ '/' ∉ g) :
    (splitSegs '/' (mkAbs gs)).filter (fun g => g ≠ []) = gs := by
  cases hgs : gs with
  | nil => rfl
  | cons g0 gs2 =>
    rw [← hgs]
    rw [show mkAbs gs = '/' :: joinSegs '/' gs from mkS_true_false_eq gs]
    rw [splitSegs_cons_sep]
    rw [splitSegs_join gs (fun g hg => (h g hg).2) (by rw [hgs]; simp)]
    rw [List.filter_cons, if_neg (by simp)]
    exact filter_ne_nil_self gs (fun g hg => (h g hg).1)

theorem posixRelative_canon (cwd : Str) (gs1 gs2 : List Str)
    (h1 : ∀ g ∈ gs1, CanonSeg g) (h2 : ∀ g ∈ gs2, CanonSeg g)
    (hne : mkAbs gs1 ≠ mkAbs gs2) :
    posixRelative cwd (mkAbs gs1) (mkAbs gs2) =
      joinSegs '/' (List.replicate (gs1.length - commonPrefixLen gs1 gs2) (str "..") ++
        gs2.drop (commonPrefixLen gs1 gs2)) := by
  unfold posixRelative
  rw [posixResolve_single cwd gs1 h1, posixResolve_single cwd gs2 h2]
  rw [if_neg hne]
  rw [splitSegs_mkAbs_filter gs1 (fun g hg => ⟨(h1 g hg).1.1, (h1 g hg).1.2.1⟩),
    splitSegs_mkAbs_filter gs2 (fun g hg => ⟨(h2 g hg).1.1, (h2 g hg).1.2.1⟩)]

end NodePath

namespace NodePath

theorem posixResolve_absfirst (cwd : Str) (s : Str) (gs : List Str)
    (h : ∀ g ∈ gs, CanonSeg g) :
    posixResolve cwd [s, mkAbs gs] = mkAbs gs := by
  unfold posixResolve
  rw [show ([s, mkAbs gs].reverse ++ [cwd]) = [mkAbs gs, s, cwd] from by simp]
  rw [posixResolveAux_abs _ _ _ (mkAbs_ne_nil gs) (mkAbs_head gs)]
  dsimp only
  rw [if_pos rfl, Bool.not_true]
  rw [dotProcess_resolve_core gs [] h]
  rw [show splitSegs '/' [] = [[]] from rfl]
  rw [show List.foldl (dotStep false) gs [[]] = gs from by
    rw [List.foldl_cons, dotStep_empty]
    rfl]
  exact (mkS_true_false_eq gs).symm

theorem isEmpty_abs (t : LocalPathType) (r : Str) (gs : List Str) :
    LocalPath.isEmpty ⟨t, r, mkAbs gs⟩ = false := by
  unfold LocalPath.isEmpty
  dsimp only
  rw [beq_eq_false_iff_ne]
  intro hlen
  exact mkAbs_ne_nil gs (List.eq_nil_of_length_eq_zero hlen)

theorem resolve_parse_rel (cwd : Str) (gs1 : List Str) (k : Nat) (ts : List Str)
    (h1 : ∀ g ∈ gs1, CanonSeg g) (hts : ∀ g ∈ ts, CanonSeg g)
    (hk : k ≤ gs1.length) (hrne : List.replicate k (str "..") ++ ts ≠ []) :
    LocalPath.resolve cwd (LocalPath.parsePosix (mkAbs gs1))
      (LocalPath.parsePosix (joinSegs '/' (List.replicate k (str "..") ++ ts))) =
      LocalPath.parsePosix (mkAbs (gs1.take (gs1.length - k) ++ ts)) := by
  have hrelsOk : ∀ g ∈ List.replicate k (str "..") ++ ts, SegOk g := by
    intro g hg
    rcases List.mem_append.mp hg with hg1 | hg2
    · rw [List.eq_of_mem_replicate hg1]
      exact ⟨by decide, by decide, by decide⟩
    · exact (hts g hg2).1
  unfold LocalPath.resolve
  rw [show (LocalPath.parsePosix (mkAbs gs1)).path = mkAbs gs1 from by
    rw [parsePosix_mkAbs gs1 (fun g hg => (h1 g hg).1)]]
  rw [show (LocalPath.parsePosix (joinSegs '/' (List.replicate k (str "..") ++ ts))).path =
      joinSegs '/' (List.replicate k (str "..") ++ ts) from by
    rw [← mkS_false_false_eq, parsePosix_mkS_ne_nil false false _ hrelsOk hrne]]
  rw [posixResolve_pair cwd gs1 k ts h1 hts hk hrne]

end NodePath

/-- C1 (amended): the round-trip law `resolve(base, relativize(base, other))
equals other` does hold on the canonical fragment: for any two absolute
POSIX paths assembled from normal segments (no empty, `"."`, `".."`,
separator-containing segments), `relativize` succeeds and resolving its
result against `base` yields a path `equals`-equal to `other`. In general
the law fails because `resolve` textually re-normalizes
(see the counterexample). -/
theorem claim1_roundtrip (cwd : Str) (gs1 gs2 : List Str)
    (h1 : ∀ g ∈ gs1, NodePath.CanonSeg g) (h2 : ∀ g ∈ gs2, NodePath.CanonSeg g) :
    ∃ r, LocalPath.relativize cwd (LocalPath.parsePosix (NodePath.mkAbs gs1))
        (LocalPath.parsePosix (NodePath.mkAbs gs2)) = .ok r ∧
      (LocalPath.resolve cwd (LocalPath.parsePosix (NodePath.mkAbs gs1)) r).equalsL
        (LocalPath.parsePosix (NodePath.mkAbs gs2)) = true := by
  have hp1 := NodePath.parsePosix_mkAbs gs1 (fun g hg => (h1 g hg).1)
  have hp2 := NodePath.parsePosix_mkAbs gs2 (fun g hg => (h2 g hg).1)
  by_cases heq : (LocalPath.parsePosix (NodePath.mkAbs gs1)).equalsL
      (LocalPath.parsePosix (NodePath.mkAbs gs2)) = true
  · refine ⟨LocalPath.emptyPath, ?_, ?_⟩
    · unfold LocalPath.relativize
      rw [if_pos heq]
    · unfold LocalPath.resolve
      rw [show (LocalPath.parsePosix (NodePath.mkAbs gs1)).path = NodePath.mkAbs gs1 from by
        rw [hp1]]
      rw [show LocalPath.emptyPath.path = [] from rfl]
      rw [NodePath.posixResolve_with_empty cwd gs1 h1]
      exact heq
  · have hne : NodePath.mkAbs gs1 ≠ NodePath.mkAbs gs2 := by
      intro hx
      apply heq
      rw [hx]
      exact NodePath.equalsL_refl _
    have hcle1 := NodePath.commonPrefixLen_le_left gs1 gs2
    have hcle2 := NodePath.commonPrefixLen_le_right gs1 gs2
    have hrne : List.replicate (gs1.length - NodePath.commonPrefixLen gs1 gs2) (str "..") ++
        gs2.drop (NodePath.commonPrefixLen gs1 gs2) ≠ [] := by
      intro hx
      rcases List.append_eq_nil.mp hx with ⟨hrep, hdrop⟩
      have hk0 : gs1.length - NodePath.commonPrefixLen gs1 gs2 = 0 := by
        have h := congrArg List.length hrep
        simpa using h
      have hd0 : gs2.length ≤ NodePath.commonPrefixLen gs1 gs2 := by
        have h := congrArg List.length hdrop
        simp at h
        omega
      exact hne (congrArg NodePath.mkAbs
        (NodePath.commonPrefixLen_full gs1 gs2 (by omega) (by omega)))
    refine ⟨LocalPath.parsePosix
      (NodePath.posixRelative cwd (NodePath.mkAbs gs1) (NodePath.mkAbs gs2)), ?_, ?_⟩
    · unfold LocalPath.relativize
      rw [if_neg heq, hp1, hp2]
      dsimp only
      rw [if_neg (by simp), if_neg (by simp), if_neg (by simp [NodePath.isEmpty_abs])]
    · rw [NodePath.posixRelative_canon cwd gs1 gs2 h1 h2 hne]
      rw [NodePath.resolve_parse_rel cwd gs1 _ _ h1
        (fun g hg => h2 g (List.drop_subset _ _ hg)) (Nat.sub_le _ _) hrne]
      rw [Nat.sub_sub_self hcle1]
      rw [NodePath.commonPrefixLen_take gs1 gs2, List.take_append_drop]
      exact NodePath.equalsL_refl _

theorem claim1_witness :
    (∀ g ∈ [str "a", str "b"], NodePath.CanonSeg g) ∧
    (∀ g ∈ [str "a", str "c"], NodePath.CanonSeg g) ∧
    ∃ r, LocalPath.relativize (str "/cwd")
        (LocalPath.parsePosix (NodePath.mkAbs [str "a", str "b"]))
        (LocalPath.parsePosix (NodePath.mkAbs [str "a", str "c"])) = .ok r ∧
      (LocalPath.resolve (str "/cwd")
          (LocalPath.parsePosix (NodePath.mkAbs [str "a", str "b"])) r).equalsL
        (LocalPath.parsePosix (NodePath.mkAbs [str "a", str "c"])) = true :=
  ⟨by decide, by decide,
    claim1_roundtrip (str "/cwd") [str "a", str "b"] [str "a", str "c"]
      (by decide) (by decide)⟩

/-- C2 (amended): on the canonical fragment the resolve laws hold: for an
absolute `other` assembled from normal segments, `resolve(base, other)`
returns `other` for every `base`; and for such a canonical absolute `base`,
resolving the empty path returns `base` unchanged. In general both clauses
fail because `resolve` goes through Node's textual `path.resolve`
(see the counterexample). -/
theorem claim2_resolve_laws (cwd : Str) (base : LocalPath) (gs : List Str)
    (h : ∀ g ∈ gs, NodePath.CanonSeg g) :
    LocalPath.resolve cwd base (LocalPath.parsePosix (NodePath.mkAbs gs)) =
      LocalPath.parsePosix (NodePath.mkAbs gs) ∧
    LocalPath.resolve cwd (LocalPath.parsePosix (NodePath.mkAbs gs)) LocalPath.emptyPath =
      LocalPath.parsePosix (NodePath.mkAbs gs) := by
  constructor
  · unfold LocalPath.resolve
    rw [show (LocalPath.parsePosix (NodePath.mkAbs gs)).path = NodePath.mkAbs gs from by
      rw [NodePath.parsePosix_mkAbs gs (fun g hg => (h g hg).1)]]
    rw [NodePath.posixResolve_absfirst cwd base.path gs h]
  · unfold LocalPath.resolve
    rw [show (LocalPath.parsePosix (NodePath.mkAbs gs)).path = NodePath.mkAbs gs from by
      rw [NodePath.parsePosix_mkAbs gs (fun g hg => (h g hg).1)]]
    rw [show LocalPath.emptyPath.path = [] from rfl]
    rw [NodePath.posixResolve_with_empty cwd gs h]

theorem claim2_witness :
    (∀ g ∈ [str "a", str "b"], NodePath.CanonSeg g) ∧
    (LocalPath.resolve (str "/w") LocalPath.emptyPath
        (LocalPath.parsePosix (NodePath.mkAbs [str "a", str "b"])) =
      LocalPath.parsePosix (NodePath.mkAbs [str "a", str "b"]) ∧
    LocalPath.resolve (str "/w")
        (LocalPath.parsePosix (NodePath.mkAbs [str "a", str "b"])) LocalPath.emptyPath =
      LocalPath.parsePosix (NodePath.mkAbs [str "a", str "b"])) :=
  ⟨by decide, claim2_resolve_laws (str "/w") LocalPath.emptyPath [str "a", str "b"] (by decide)⟩

/-! ## Name elements of canonical absolute paths (for C9) -/

namespace NodePath

/-- The name-element offsets of `mkAbs gs`, when scanning starts at `k`. -/
def segOffsets (k : Nat) : List Str → List Nat
  | [] => []
  | [_] => [k]
  | g :: g2 :: gs => k :: segOffsets (k + g.length + 1) (g2 :: gs)

/-- Total length of the first `i` segments, counting one separator each. -/
def prefLen : List Str → Nat → Nat
  | _, 0 => 0
  | [], _ + 1 => 0
  | g :: gs, i + 1 => g.length + 1 + prefLen gs i

theorem offsetsLoop_append (sep : Char) (g : Str) :
    ∀ (rest : Str) (start off : Nat), sep ∉ g →
    LocalPath.offsetsLoop sep (g ++ rest) start off =
      LocalPath.offsetsLoop sep rest start (off + g.length) := by
  induction g with
  | nil =>
    intro rest start off _
    simp
  | cons c g' ih =>
    intro rest start off hg
    simp only [List.mem_cons, not_or] at hg
    have hc : c ≠ sep := fun hx => hg.1 hx.symm
    show (if c ≠ sep then LocalPath.offsetsLoop sep (g' ++ rest) start (off + 1)
      else start :: LocalPath.offsetsLoop sep (g' ++ rest) (off + 1) (off + 1)) = _
    rw [if_pos hc, ih rest start (off + 1) hg.2]
    rw [show off + 1 + g'.length = off + (c :: g').length from by
      simp only [List.length_cons]
      omega]

theorem offsetsLoop_sep (sep : Char) (rest : Str) (start off : Nat) :
    LocalPath.offsetsLoop sep (sep :: rest) start off =
      start :: LocalPath.offsetsLoop sep rest (off + 1) (off + 1) := by
  show (if sep ≠ sep then LocalPath.offsetsLoop sep rest start (off + 1)
    else start :: LocalPath.offsetsLoop sep rest (off + 1) (off + 1)) = _
  rw [if_neg (by simp)]

theorem offsetsLoop_join (gs : List Str) :
    ∀ k : Nat, (∀ g ∈ gs, g ≠ [] ∧ '/' ∉ g) → gs ≠ [] →
    LocalPath.offsetsLoop '/' (joinSegs '/' gs) k k = segOffsets k gs := by
  induction gs with
  | nil =>
    intro k _ hne
    exact absurd rfl hne
  | cons g gs' ih =>
    intro k h _
    have hgok := h g (List.mem_cons_self g gs')
    cases gs' with
    | nil =>
      show LocalPath.offsetsLoop '/' g k k = [k]
      rw [show (g : Str) = g ++ [] from (List.append_nil g).symm,
        offsetsLoop_append '/' g [] k k hgok.2]
      show (if k ≠ k + g.length then [k] else []) = [k]
      rw [if_pos (by
        have := List.length_pos.mpr hgok.1
        omega)]
    | cons g2 gs'' =>
      show LocalPath.offsetsLoop '/' (g ++ '/' :: joinSegs '/' (g2 :: gs'')) k k = _
      rw [offsetsLoop_append '/' g _ k k hgok.2, offsetsLoop_sep]
      rw [ih (k + g.length + 1) (fun x hx => h x (List.mem_cons_of_mem g hx)) (by simp)]
      rfl

theorem segOffsets_length (gs : List Str) : ∀ k, (segOffsets k gs).length = gs.length := by
  induction gs with
  | nil =>
    intro k
    rfl
  | cons g gs' ih =>
    intro k
    cases gs' with
    | nil => rfl
    | cons g2 gs'' =>
      show (k :: segOffsets (k + g.length + 1) (g2 :: gs'')).length = _
      simp only [List.length_cons, ih (k + g.length + 1)]

theorem segOffsets_getD (gs : List Str) : ∀ i k, i < gs.length →
    (segOffsets k gs).getD i 0 = k + prefLen gs i := by
  induction gs with
  | nil =>
    intro i k hi
    simp at hi
  | cons g gs' ih =>
    intro i k hi
    cases i with
    | zero =>
      cases gs' with
      | nil => rfl
      | cons g2 gs'' => rfl
    | succ i =>
      cases gs' with
      | nil => simp at hi
      | cons g2 gs'' =>
        show (k :: segOffsets (k + g.length + 1) (g2 :: gs'')).getD (i + 1) 0 = _
        rw [List.getD_cons_succ]
        rw [ih i (k + g.length + 1) (by simpa using hi)]
        show k + g.length + 1 + prefLen (g2 :: gs'') i =
          k + (g.length + 1 + prefLen (g2 :: gs'') i)
        omega

theorem prefLen_zero (gs : List Str) : prefLen gs 0 = 0 := by
  cases gs <;> rfl

theorem prefLen_succ (gs : List Str) : ∀ i, i < gs.length →
    prefLen gs (i + 1) = prefLen gs i + (gs.getD i []).length + 1 := by
  induction gs with
  | nil =>
    intro i hi
    simp at hi
  | cons g gs' ih =>
    intro i hi
    cases i with
    | zero =>
      show g.length + 1 + prefLen gs' 0 = 0 + g.length + 1
      rw [prefLen_zero]
      omega
    | succ i =>
      show g.length + 1 + prefLen gs' (i + 1) = g.length + 1 + prefLen gs' i + (gs'.getD i []).length + 1
      rw [ih i (by simpa using hi)]
      omega

theorem joinSegs_drop (gs : List Str) : ∀ i, i < gs.length →
    (joinSegs '/' gs).drop (prefLen gs i) = joinSegs '/' (gs.drop i) := by
  induction gs with
  | nil =>
    intro i hi
    simp at hi
  | cons g gs' ih =>
    intro i hi
    cases i with
    | zero => rfl
    | succ i =>
      have hi' : i < gs'.length := by simpa using hi
      have hne' : gs' ≠ [] := by
        intro hx
        rw [hx] at hi'
        simp at hi'
      cases gs' with
      | nil => exact absurd rfl hne'
      | cons g2 gs'' =>
        show (g ++ '/' :: joinSegs '/' (g2 :: gs'')).drop
          (g.length + 1 + prefLen (g2 :: gs'') i) = _
        rw [← List.drop_drop, ← List.drop_drop]
        rw [show (g ++ '/' :: joinSegs '/' (g2 :: gs'')).drop g.length =
          '/' :: joinSegs '/' (g2 :: gs'') from by simp]
        rw [List.drop_one, List.tail_cons]
        exact ih i hi'

end NodePath

namespace NodePath

theorem getD_eq_getElem_of_lt (l : List Str) (i : Nat) (h : i < l.length) :
    l.getD i [] = l[i] := by
  rw [List.getD_eq_getElem?_getD, List.getElem?_eq_getElem h]
  rfl

theorem joinSegs_drop_last (gs : List Str) (hne : gs ≠ []) :
    joinSegs '/' (gs.drop (gs.length - 1)) = gs.getD (gs.length - 1) [] := by
  induction gs with
  | nil => exact absurd rfl hne
  | cons g gs' ih =>
    cases gs' with
    | nil => rfl
    | cons g2 gs'' =>
      show joinSegs '/' ((g2 :: gs'').drop ((g2 :: gs'').length - 1)) =
        (g2 :: gs'').getD ((g2 :: gs'').length - 1) []
      exact ih (by simp)

theorem substring_add (s : Str) (a n : Nat) : substring s a (a + n) = (s.drop a).take n := by
  unfold substring
  exact (List.take_drop a n s).symm

theorem initOffsets_mkAbs (t : LocalPathType) (gs : List Str)
    (h : ∀ g ∈ gs, g ≠ [] ∧ '/' ∉ g) (hne : gs ≠ []) :
    LocalPath.initOffsets '/' ⟨t, ['/'], mkAbs gs⟩ = segOffsets 1 gs := by
  unfold LocalPath.initOffsets
  rw [if_neg (by simp [isEmpty_abs])]
  show LocalPath.offsetsLoop '/' ((mkAbs gs).drop 1) 1 1 = segOffsets 1 gs
  rw [show mkAbs gs = '/' :: joinSegs '/' gs from mkS_true_false_eq gs,
    List.drop_one, List.tail_cons]
  exact offsetsLoop_join gs 1 h hne

theorem getNameCount_mkAbs (t : LocalPathType) (gs : List Str)
    (h : ∀ g ∈ gs, g ≠ [] ∧ '/' ∉ g) :
    LocalPath.getNameCount '/' ⟨t, ['/'], mkAbs gs⟩ = gs.length := by
  cases hgs : gs with
  | nil => cases t <;> decide
  | cons g0 gs' =>
    rw [← hgs]
    unfold LocalPath.getNameCount
    rw [initOffsets_mkAbs t gs h (by rw [hgs]; simp)]
    exact segOffsets_length gs 1

theorem mkAbs_drop_pref (gs : List Str) (i : Nat) (hi : i < gs.length) :
    (mkAbs gs).drop (1 + prefLen gs i) = joinSegs '/' (gs.drop i) := by
  rw [show mkAbs gs = '/' :: joinSegs '/' gs from mkS_true_false_eq gs,
    show 1 + prefLen gs i = prefLen gs i + 1 from by omega,
    List.drop_succ_cons]
  exact joinSegs_drop gs i hi

theorem elementAsString_mkAbs (t : LocalPathType) (gs : List Str) (i : Nat)
    (h : ∀ g ∈ gs, g ≠ [] ∧ '/' ∉ g) (hi : i < gs.length) :
    LocalPath.elementAsString '/' ⟨t, ['/'], mkAbs gs⟩ i = gs.getD i [] := by
  have hne : gs ≠ [] := by
    intro hx
    rw [hx] at hi
    simp at hi
  unfold LocalPath.elementAsString
  rw [initOffsets_mkAbs t gs h hne]
  dsimp only
  rw [segOffsets_length gs 1]
  by_cases hlast : i = gs.length - 1
  · rw [if_pos hlast, segOffsets_getD gs i 1 hi]
    unfold substringFrom
    rw [mkAbs_drop_pref gs i hi]
    subst hlast
    exact joinSegs_drop_last gs hne
  · have hi2 : i + 1 < gs.length := by omega
    rw [if_neg hlast, segOffsets_getD gs i 1 hi, segOffsets_getD gs (i + 1) 1 hi2,
      prefLen_succ gs i hi]
    rw [show 1 + (prefLen gs i + (gs.getD i []).length + 1) - 1 =
      (1 + prefLen gs i) + (gs.getD i []).length from by omega]
    rw [substring_add, mkAbs_drop_pref gs i hi]
    rw [List.drop_eq_getElem_cons hi, ← getD_eq_getElem_of_lt gs i hi]
    have hd2ne : gs.drop (i + 1) ≠ [] := by
      intro hx
      have := congrArg List.length hx
      simp at this
      omega
    cases hd2 : gs.drop (i + 1) with
    | nil => exact absurd hd2 hd2ne
    | cons d ds =>
      show (gs.getD i [] ++ '/' :: joinSegs '/' (d :: ds)).take (gs.getD i []).length =
        gs.getD i []
      exact List.take_left _ _

end NodePath

/-! ## `equals` and `startsWith` on canonical ASCII paths (for C9) -/

namespace NodePath

theorem jsToUpper_ascii_map (s : Str) (h : asciiStr s = true) :
    jsToUpper s = s.map asciiUpper := by
  induction s with
  | nil => rfl
  | cons c t ih =>
    simp only [asciiStr, List.all_cons, Bool.and_eq_true] at h
    rw [jsToUpper_cons, jsCharToUpper_ascii c h.1, List.map_cons,
      ih (by simpa [asciiStr] using h.2)]
    rfl

theorem char_le_toNat {a b : Char} (h : a ≤ b) : a.toNat ≤ b.toNat :=
  BitVec.le_def.mp (Char.le_def.mp h)

theorem char_toNat_ofNat_valid (n : Nat) (h : n < 55296) :
    (Char.ofNat n).toNat = n := by
  unfold Char.ofNat
  rw [dif_pos (Or.inl h : Nat.isValidChar n)]
  simp [Char.ofNatAux, Char.toNat, UInt32.toNat]

theorem asciiUpper_eq_slash {c : Char} (h : asciiUpper c = '/') : c = '/' := by
  unfold asciiUpper at h
  split_ifs at h with h1
  · exfalso
    have hc1 := char_le_toNat h1.1
    have hc2 := char_le_toNat h1.2
    rw [show Char.toNat 'a' = 97 from rfl] at hc1
    rw [show Char.toNat 'z' = 122 from rfl] at hc2
    have hnum := congrArg Char.toNat h
    rw [char_toNat_ofNat_valid (c.toNat - 32) (by omega),
      show Char.toNat '/' = 47 from rfl] at hnum
    omega
  · exact h

end NodePath

namespace NodePath

theorem asciiStr_mkAbs (gs : List Str) (ha : ∀ g ∈ gs, asciiStr g = true) :
    asciiStr (mkAbs gs) = true := by
  rw [show mkAbs gs = '/' :: joinSegs '/' gs from mkS_true_false_eq gs]
  rw [asciiStr, List.all_cons]
  rw [Bool.and_eq_true]
  refine ⟨by decide, ?_⟩
  rw [List.all_eq_true]
  intro x hx
  rcases joinSegs_mem_chars gs x hx with hx1 | ⟨g, hg, hxg⟩
  · subst hx1
    decide
  · have hga := ha g hg
    rw [asciiStr, List.all_eq_true] at hga
    exact hga x hxg

theorem intCompare_eq_zero (a : Str) : ∀ b : Str, intCompare a b = 0 ↔ a = b := by
  induction a with
  | nil =>
    intro b
    cases b with
    | nil => simp [intCompare]
    | cons y ys =>
      simp only [intCompare]
      constructor
      · intro h
        exfalso
        simp at h
        omega
      · intro h
        exact absurd h (by simp)
  | cons x xs ih =>
    intro b
    cases b with
    | nil =>
      simp only [intCompare]
      constructor
      · intro h
        exfalso
        simp at h
        omega
      · intro h
        exact absurd h (by simp)
    | cons y ys =>
      simp only [intCompare]
      by_cases hxy : x = y
      · subst hxy
        rw [if_pos rfl, ih ys]
        simp
      · rw [if_neg hxy]
        constructor
        · intro h0
          exfalso
          have hn : x.toNat = y.toNat := by omega
          exact hxy (char_toNat_inj hn)
        · intro hEq
          simp only [List.cons.injEq] at hEq
          exact absurd hEq.1 hxy

theorem joinSegs_map_asciiUpper (gs : List Str) :
    (joinSegs '/' gs).map asciiUpper = joinSegs '/' (gs.map (List.map asciiUpper)) := by
  induction gs with
  | nil => rfl
  | cons g gs' ih =>
    cases gs' with
    | nil => rfl
    | cons g2 gs'' =>
      show (g ++ '/' :: joinSegs '/' (g2 :: gs'')).map asciiUpper = _
      rw [List.map_append, List.map_cons, ih]
      rw [show asciiUpper '/' = '/' from by decide]
      rfl

theorem mkAbs_map_asciiUpper (gs : List Str) :
    (mkAbs gs).map asciiUpper = mkAbs (gs.map (List.map asciiUpper)) := by
  rw [show mkAbs gs = '/' :: joinSegs '/' gs from mkS_true_false_eq gs]
  rw [show mkAbs (gs.map (List.map asciiUpper)) =
    '/' :: joinSegs '/' (gs.map (List.map asciiUpper)) from mkS_true_false_eq _]
  rw [List.map_cons, joinSegs_map_asciiUpper]
  rw [show asciiUpper '/' = '/' from by decide]

theorem mkAbs_inj (xs ys : List Str) (hx : ∀ g ∈ xs, g ≠ [] ∧ '/' ∉ g)
    (hy : ∀ g ∈ ys, g ≠ [] ∧ '/' ∉ g) (h : mkAbs xs = mkAbs ys) : xs = ys := by
  have h1 := splitSegs_mkAbs_filter xs hx
  rw [h, splitSegs_mkAbs_filter ys hy] at h1
  exact h1.symm

theorem mapped_segok (gs : List Str) (h : ∀ g ∈ gs, g ≠ [] ∧ '/' ∉ g) :
    ∀ g ∈ gs.map (List.map asciiUpper), g ≠ [] ∧ '/' ∉ g := by
  intro g hg
  rcases List.mem_map.mp hg with ⟨g0, hg0, rfl⟩
  refine ⟨?_, ?_⟩
  · intro hx
    exact (h g0 hg0).1 (List.map_eq_nil_iff.mp hx)
  · intro hx
    rcases List.mem_map.mp hx with ⟨c, hc, hcu⟩
    exact (h g0 hg0).2 ((asciiUpper_eq_slash hcu) ▸ hc)

theorem equalsL_mkAbs_iff (t1 t2 : LocalPathType) (r1 r2 : Str) (qs ms : List Str)
    (hq : ∀ g ∈ qs, g ≠ [] ∧ '/' ∉ g) (hm : ∀ g ∈ ms, g ≠ [] ∧ '/' ∉ g)
    (haq : ∀ g ∈ qs, asciiStr g = true) (ham : ∀ g ∈ ms, asciiStr g = true) :
    LocalPath.equalsL ⟨t1, r1, mkAbs qs⟩ ⟨t2, r2, mkAbs ms⟩ = true ↔
      qs.map (List.map asciiUpper) = ms.map (List.map asciiUpper) := by
  unfold LocalPath.equalsL LocalPath.compareTo
  dsimp only
  rw [compareToLoop_ascii _ _ (asciiStr_mkAbs qs haq) (asciiStr_mkAbs ms ham)]
  rw [beq_iff_eq, intCompare_eq_zero]
  rw [mkAbs_map_asciiUpper, mkAbs_map_asciiUpper]
  constructor
  · intro h
    exact mkAbs_inj _ _ (mapped_segok qs hq) (mapped_segok ms hm) h
  · intro h
    rw [h]

theorem getD_map_nil (F : Str → Str) (hF : F [] = []) (l : List Str) :
    ∀ i, (l.map F).getD i [] = F (l.getD i []) := by
  induction l with
  | nil =>
    intro i
    cases i <;> simp [hF]
  | cons a l ih =>
    intro i
    cases i with
    | zero => rfl
    | succ i =>
      show (l.map F).getD i [] = F (l.getD i [])
      exact ih i

theorem asciiStr_getD (gs : List Str) (ha : ∀ g ∈ gs, asciiStr g = true)
    (i : Nat) (hi : i < gs.length) : asciiStr (gs.getD i []) = true := by
  rw [getD_eq_getElem_of_lt gs i hi]
  exact ha _ (List.getElem_mem hi)

end NodePath

namespace NodePath

theorem mapped_eq_elements (qs ms : List Str)
    (haq : ∀ g ∈ qs, asciiStr g = true) (ham : ∀ g ∈ ms, asciiStr g = true)
    (hmap : qs.map (List.map asciiUpper) = ms.map (List.map asciiUpper)) :
    qs.length = ms.length ∧
      ∀ i < ms.length, jsToUpper (ms.getD i []) = jsToUpper (qs.getD i []) := by
  have hlen : qs.length = ms.length := by
    have h := congrArg List.length hmap
    simpa using h
  refine ⟨hlen, ?_⟩
  intro i hi
  rw [jsToUpper_ascii_map _ (asciiStr_getD ms ham i hi),
    jsToUpper_ascii_map _ (asciiStr_getD qs haq i (by omega))]
  rw [← getD_map_nil (List.map asciiUpper) rfl ms i,
    ← getD_map_nil (List.map asciiUpper) rfl qs i, hmap]

theorem elementsMatch_mkAbs (t1 t2 : LocalPathType) (qs ms : List Str)
    (hq : ∀ g ∈ qs, g ≠ [] ∧ '/' ∉ g) (hm : ∀ g ∈ ms, g ≠ [] ∧ '/' ∉ g) :
    ∀ n : Nat, n ≤ ms.length → n ≤ qs.length →
    (LocalPath.elementsMatch '/' ⟨t1, ['/'], mkAbs qs⟩ ⟨t2, ['/'], mkAbs ms⟩ 0 n = true ↔
      ∀ i < n, jsToUpper (ms.getD i []) = jsToUpper (qs.getD i [])) := by
  intro n
  induction n with
  | zero =>
    intro _ _
    show (true = true) ↔ _
    simp
  | succ n ih =>
    intro hn hnq
    show ((jsToUpper (LocalPath.elementAsString '/' ⟨t1, ['/'], mkAbs qs⟩ (0 + n)) ==
      jsToUpper (LocalPath.elementAsString '/' ⟨t2, ['/'], mkAbs ms⟩ n)) &&
      LocalPath.elementsMatch '/' ⟨t1, ['/'], mkAbs qs⟩ ⟨t2, ['/'], mkAbs ms⟩ 0 n) = true ↔ _
    rw [Bool.and_eq_true, ih (by omega) (by omega)]
    rw [elementAsString_mkAbs t1 qs (0 + n) hq (by omega),
      elementAsString_mkAbs t2 ms n hm (by omega)]
    rw [beq_iff_eq, Nat.zero_add]
    constructor
    · rintro ⟨h1, h2⟩ i hi
      rcases Nat.lt_succ_iff_lt_or_eq.mp hi with hlt | hEq
      · exact h2 i hlt
      · subst hEq
        exact h1.symm
    · intro h
      exact ⟨(h n (by omega)).symm, fun i hi => h i (by omega)⟩

theorem startsWith_mkAbs_iff (t1 t2 : LocalPathType) (qs ms : List Str)
    (hq : ∀ g ∈ qs, CanonSeg g) (hm : ∀ g ∈ ms, CanonSeg g)
    (haq : ∀ g ∈ qs, asciiStr g = true) (ham : ∀ g ∈ ms, asciiStr g = true) :
    (LocalPath.startsWithL '/' ⟨t1, ['/'], mkAbs qs⟩ ⟨t2, ['/'], mkAbs ms⟩ = true ↔
      (ms.length ≤ qs.length ∧
        ∀ i < ms.length, jsToUpper (ms.getD i []) = jsToUpper (qs.getD i []))) := by
  have hq' : ∀ g ∈ qs, g ≠ [] ∧ '/' ∉ g := fun g hg => ⟨(hq g hg).1.1, (hq g hg).1.2.1⟩
  have hm' : ∀ g ∈ ms, g ≠ [] ∧ '/' ∉ g := fun g hg => ⟨(hm g hg).1.1, (hm g hg).1.2.1⟩
  unfold LocalPath.startsWithL LocalPath.startsWith
  show (if jsToUpper (['/'] : Str) ≠ jsToUpper (['/'] : Str) then false
    else if LocalPath.isEmpty ⟨t2, ['/'], mkAbs ms⟩ = true then
      LocalPath.isEmpty ⟨t1, ['/'], mkAbs qs⟩
    else if LocalPath.equalsL ⟨t1, ['/'], mkAbs qs⟩ ⟨t2, ['/'], mkAbs ms⟩ = true then true
    else if LocalPath.getNameCount '/' ⟨t2, ['/'], mkAbs ms⟩ ≤
        LocalPath.getNameCount '/' ⟨t1, ['/'], mkAbs qs⟩ then
      LocalPath.elementsMatch '/' ⟨t1, ['/'], mkAbs qs⟩ ⟨t2, ['/'], mkAbs ms⟩ 0
        (LocalPath.getNameCount '/' ⟨t2, ['/'], mkAbs ms⟩)
    else false) = true ↔ _
  rw [if_neg (by simp)]
  rw [if_neg (by simp [isEmpty_abs])]
  by_cases heq : LocalPath.equalsL ⟨t1, ['/'], mkAbs qs⟩ ⟨t2, ['/'], mkAbs ms⟩ = true
  · rw [if_pos heq]
    have hmap := (equalsL_mkAbs_iff t1 t2 ['/'] ['/'] qs ms hq' hm' haq ham).mp heq
    have hel := mapped_eq_elements qs ms haq ham hmap
    exact iff_of_true rfl ⟨by omega, hel.2⟩
  · rw [if_neg heq]
    rw [getNameCount_mkAbs t1 qs hq', getNameCount_mkAbs t2 ms hm']
    by_cases hle : ms.length ≤ qs.length
    · rw [if_pos hle]
      rw [elementsMatch_mkAbs t1 t2 qs ms hq' hm' ms.length (Nat.le_refl _) hle]
      constructor
      · intro h
        exact ⟨hle, h⟩
      · intro h
        exact h.2
    · rw [if_neg hle]
      constructor
      · intro h
        exact absurd h (by simp)
      · intro h
        exact absurd h.1 hle

end NodePath

namespace NodePath

/-- A `LocalPath` that is the parse of a canonical absolute ASCII POSIX
path: absolute type, root `"/"`, and a path assembled from normal ASCII
segments. -/
def CanonAbs (p : LocalPath) : Prop :=
  ∃ gs : List Str, (∀ g ∈ gs, CanonSeg g) ∧ (∀ g ∈ gs, asciiStr g = true) ∧
    p = ⟨LocalPathType.ABSOLUTE, ['/'], mkAbs gs⟩

theorem canonAbs_count_le {q a : LocalPath} (hq : CanonAbs q) (ha : CanonAbs a)
    (h : LocalPath.startsWithL '/' q a = true) :
    LocalPath.getNameCount '/' a ≤ LocalPath.getNameCount '/' q := by
  obtain ⟨qs, hq1, hq2, rfl⟩ := hq
  obtain ⟨gs, ha1, ha2, rfl⟩ := ha
  have hq' : ∀ g ∈ qs, g ≠ [] ∧ '/' ∉ g := fun g hg => ⟨(hq1 g hg).1.1, (hq1 g hg).1.2.1⟩
  have ha' : ∀ g ∈ gs, g ≠ [] ∧ '/' ∉ g := fun g hg => ⟨(ha1 g hg).1.1, (ha1 g hg).1.2.1⟩
  rw [getNameCount_mkAbs _ qs hq', getNameCount_mkAbs _ gs ha']
  exact ((startsWith_mkAbs_iff _ _ qs gs hq1 ha1 hq2 ha2).mp h).1

theorem canonAbs_chain {q a b : LocalPath} (hq : CanonAbs q) (ha : CanonAbs a)
    (hb : CanonAbs b)
    (h1 : LocalPath.startsWithL '/' q a = true) (h2 : LocalPath.startsWithL '/' q b = true)
    (hle : LocalPath.getNameCount '/' a ≤ LocalPath.getNameCount '/' b) :
    LocalPath.startsWithL '/' b a = true := by
  obtain ⟨qs, hq1, hq2, rfl⟩ := hq
  obtain ⟨as, ha1, ha2, rfl⟩ := ha
  obtain ⟨bs, hb1, hb2, rfl⟩ := hb
  have hq' : ∀ g ∈ qs, g ≠ [] ∧ '/' ∉ g := fun g hg => ⟨(hq1 g hg).1.1, (hq1 g hg).1.2.1⟩
  have ha' : ∀ g ∈ as, g ≠ [] ∧ '/' ∉ g := fun g hg => ⟨(ha1 g hg).1.1, (ha1 g hg).1.2.1⟩
  have hb' : ∀ g ∈ bs, g ≠ [] ∧ '/' ∉ g := fun g hg => ⟨(hb1 g hg).1.1, (hb1 g hg).1.2.1⟩
  rw [getNameCount_mkAbs _ as ha', getNameCount_mkAbs _ bs hb'] at hle
  obtain ⟨hla, hea⟩ := (startsWith_mkAbs_iff _ _ qs as hq1 ha1 hq2 ha2).mp h1
  obtain ⟨hlb, heb⟩ := (startsWith_mkAbs_iff _ _ qs bs hq1 hb1 hq2 hb2).mp h2
  refine (startsWith_mkAbs_iff _ _ bs as hb1 ha1 hb2 ha2).mpr ⟨hle, ?_⟩
  intro i hi
  rw [hea i hi, heb i (by omega)]

end NodePath

namespace LocalFileSystemProvider

open NodePath

theorem getFileStoreLoop_none (q : LocalPath) :
    ∀ l : List (Nat × LocalPath), (∀ im ∈ l, LocalPath.startsWithL '/' q im.2 = false) →
    getFileStoreLoop '/' q l none = none := by
  intro l
  induction l with
  | nil =>
    intro _
    rfl
  | cons im rest ih =>
    intro h
    show getFileStoreLoop '/' q rest
      (if LocalPath.startsWithL '/' q im.2 then some im else none) = none
    rw [h im (List.mem_cons_self im rest)]
    exact ih (fun x hx => h x (List.mem_cons_of_mem im hx))

theorem getFileStoreLoop_spec (q : LocalPath) (hq : CanonAbs q) :
    ∀ (l : List (Nat × LocalPath)), (∀ im ∈ l, CanonAbs im.2) →
    ∀ acc : Option (Nat × LocalPath),
    (∀ g, acc = some g → CanonAbs g.2 ∧ LocalPath.startsWithL '/' q g.2 = true) →
    ∀ f, getFileStoreLoop '/' q l acc = some f →
      (CanonAbs f.2 ∧ LocalPath.startsWithL '/' q f.2 = true) ∧
      (∀ im ∈ l, LocalPath.startsWithL '/' q im.2 = true →
        LocalPath.getNameCount '/' im.2 ≤ LocalPath.getNameCount '/' f.2) ∧
      (∀ g, acc = some g →
        LocalPath.getNameCount '/' g.2 ≤ LocalPath.getNameCount '/' f.2) := by
  intro l
  induction l with
  | nil =>
    intro _ acc hacc f hloop
    have haf : acc = some f := hloop
    refine ⟨hacc f haf, ?_, ?_⟩
    · intro im him
      simp at him
    · intro g hg
      rw [hg] at haf
      cases haf
      exact Nat.le_refl _
  | cons im rest ih =>
    intro hl acc hacc f hloop
    have hlrest : ∀ x ∈ rest, CanonAbs x.2 := fun x hx => hl x (List.mem_cons_of_mem im hx)
    have hlim : CanonAbs im.2 := hl im (List.mem_cons_self im rest)
    cases hak : acc with
    | none =>
      rw [hak] at hloop
      have hloop2 : getFileStoreLoop '/' q rest
          (if LocalPath.startsWithL '/' q im.2 then some im else none) = some f := hloop
      cases hsw : LocalPath.startsWithL '/' q im.2 with
      | true =>
        rw [hsw, if_pos rfl] at hloop2
        obtain ⟨hf, hrest, haccle⟩ := ih hlrest (some im)
          (by
            intro g hg
            cases hg
            exact ⟨hlim, hsw⟩) f hloop2
        refine ⟨hf, ?_, ?_⟩
        · intro x hx hswx
          rcases List.mem_cons.mp hx with hEq | hmem
          · subst hEq
            exact haccle x rfl
          · exact hrest x hmem hswx
        · intro g hg
          cases hg
      | false =>
        rw [hsw, if_neg Bool.false_ne_true] at hloop2
        obtain ⟨hf, hrest, _⟩ := ih hlrest none (by intro g hg; cases hg) f hloop2
        refine ⟨hf, ?_, ?_⟩
        · intro x hx hswx
          rcases List.mem_cons.mp hx with hEq | hmem
          · subst hEq
            rw [hsw] at hswx
            cases hswx
          · exact hrest x hmem hswx
        · intro g hg
          cases hg
    | some g0 =>
      rw [hak] at hloop
      obtain ⟨hg0c, hg0sw⟩ := hacc g0 hak
      have hloop2 : getFileStoreLoop '/' q rest
          (if LocalPath.startsWithL '/' q im.2 && LocalPath.startsWithL '/' im.2 g0.2
            then some im else some g0) = some f := hloop
      cases haccept : LocalPath.startsWithL '/' q im.2 && LocalPath.startsWithL '/' im.2 g0.2 with
      | true =>
        rw [haccept, if_pos rfl] at hloop2
        have haccept2 := haccept
        rw [Bool.and_eq_true] at haccept2
        obtain ⟨hswim, hswmf⟩ := haccept2
        obtain ⟨hf, hrest, haccle⟩ := ih hlrest (some im)
          (by
            intro g hg
            cases hg
            exact ⟨hlim, hswim⟩) f hloop2
        refine ⟨hf, ?_, ?_⟩
        · intro x hx hswx
          rcases List.mem_cons.mp hx with hEq | hmem
          · subst hEq
            exact haccle x rfl
          · exact hrest x hmem hswx
        · intro g hg
          cases hg
          have h1 : LocalPath.getNameCount '/' g0.2 ≤ LocalPath.getNameCount '/' im.2 :=
            canonAbs_count_le hlim hg0c hswmf
          exact Nat.le_trans h1 (haccle im rfl)
      | false =>
        rw [haccept, if_neg Bool.false_ne_true] at hloop2
        obtain ⟨hf, hrest, haccle⟩ := ih hlrest (some g0) (by
          intro g hg
          cases hg
          exact ⟨hg0c, hg0sw⟩) f hloop2
        refine ⟨hf, ?_, ?_⟩
        · intro x hx hswx
          rcases List.mem_cons.mp hx with hEq | hmem
          · subst hEq
            have hswmf : LocalPath.startsWithL '/' x.2 g0.2 = false := by
              cases hx2 : LocalPath.startsWithL '/' x.2 g0.2 with
              | false => rfl
              | true =>
                rw [hswx, hx2] at haccept
                cases haccept
            have hnle : ¬ LocalPath.getNameCount '/' g0.2 ≤ LocalPath.getNameCount '/' x.2 := by
              intro hcon
              have := canonAbs_chain hq hg0c (hl x hx) hg0sw hswx hcon
              rw [this] at hswmf
              cases hswmf
            have h2 := haccle g0 rfl
            omega
          · exact hrest x hmem hswx
        · intro g hg
          cases hg
          exact haccle g0 rfl

theorem getFileStoreLoop_some (q : LocalPath) :
    ∀ (l : List (Nat × LocalPath)) (acc : Option (Nat × LocalPath)),
    ((∃ im ∈ l, LocalPath.startsWithL '/' q im.2 = true) ∨ acc.isSome = true) →
    ∃ f, getFileStoreLoop '/' q l acc = some f := by
  intro l
  induction l with
  | nil =>
    intro acc h
    rcases h with ⟨im, him, _⟩ | hsome
    · simp at him
    · cases acc with
      | none => simp at hsome
      | some g => exact ⟨g, rfl⟩
  | cons im rest ih =>
    intro acc h
    cases acc with
    | none =>
      have hloop : getFileStoreLoop '/' q (im :: rest) none =
          getFileStoreLoop '/' q rest
            (if LocalPath.startsWithL '/' q im.2 then some im else none) := rfl
      rw [hloop]
      cases hsw : LocalPath.startsWithL '/' q im.2 with
      | true =>
        rw [if_pos rfl]
        exact ih (some im) (Or.inr rfl)
      | false =>
        rw [if_neg Bool.false_ne_true]
        rcases h with ⟨x, hx, hswx⟩ | hsome
        · rcases List.mem_cons.mp hx with hEq | hmem
          · subst hEq
            rw [hsw] at hswx
            cases hswx
          · exact ih none (Or.inl ⟨x, hmem, hswx⟩)
        · simp at hsome
    | some g0 =>
      have hloop : getFileStoreLoop '/' q (im :: rest) (some g0) =
          getFileStoreLoop '/' q rest
            (if LocalPath.startsWithL '/' q im.2 && LocalPath.startsWithL '/' im.2 g0.2
              then some im else some g0) := rfl
      rw [hloop]
      cases haccept : LocalPath.startsWithL '/' q im.2 && LocalPath.startsWithL '/' im.2 g0.2 with
      | true =>
        rw [if_pos rfl]
        exact ih (some im) (Or.inr rfl)
      | false =>
        rw [if_neg Bool.false_ne_true]
        exact ih (some g0) (Or.inr rfl)

end LocalFileSystemProvider

namespace NodePath

theorem toAbsolutePath_parsePosix_mkAbs (cwd : Str) (gs : List Str)
    (h : ∀ g ∈ gs, SegOk g) :
    LocalPath.toAbsolutePath cwd (LocalPath.parsePosix (mkAbs gs)) =
      LocalPath.parsePosix (mkAbs gs) := by
  rw [parsePosix_mkAbs gs h]
  unfold LocalPath.toAbsolutePath
  rw [if_pos (show LocalPath.isAbsolute
    ⟨LocalPathType.ABSOLUTE, ['/'], mkAbs gs⟩ = true from rfl)]

end NodePath

/-- C9: mount resolution. For a canonical absolute ASCII query path and
canonical absolute mount points, `getFileStore` fails with
`IllegalArgumentException("Path does not have a FileStore")` exactly when no
mount point matches (`startsWith`); and whenever some mount point matches,
it succeeds and returns a store whose mount point matches the query and has
the greatest name count among all matching mount points (the longest
match). -/
theorem claim9_mount_resolution (cwd : Str) (stores : List (List LocalPath)) (qs : List Str)
    (hqc : ∀ g ∈ qs, NodePath.CanonSeg g) (hqa : ∀ g ∈ qs, asciiStr g = true)
    (hmounts : ∀ im ∈ (stores.enum.map (fun ims => ims.2.map (fun m => (ims.1, m)))).flatten,
      NodePath.CanonAbs im.2) :
    ((∀ im ∈ (stores.enum.map (fun ims => ims.2.map (fun m => (ims.1, m)))).flatten,
        LocalPath.startsWithL '/' (LocalPath.parsePosix (NodePath.mkAbs qs)) im.2 = false) →
      LocalFileSystemProvider.getFileStore cwd stores (LocalPath.parsePosix (NodePath.mkAbs qs)) =
        .error (.illegalArgument (str "Path does not have a FileStore"))) ∧
    ((∃ im ∈ (stores.enum.map (fun ims => ims.2.map (fun m => (ims.1, m)))).flatten,
        LocalPath.startsWithL '/' (LocalPath.parsePosix (NodePath.mkAbs qs)) im.2 = true) →
      ∃ f, LocalFileSystemProvider.getFileStore cwd stores
          (LocalPath.parsePosix (NodePath.mkAbs qs)) = .ok f ∧
        LocalPath.startsWithL '/' (LocalPath.parsePosix (NodePath.mkAbs qs)) f.2 = true ∧
        ∀ im ∈ (stores.enum.map (fun ims => ims.2.map (fun m => (ims.1, m)))).flatten,
          LocalPath.startsWithL '/' (LocalPath.parsePosix (NodePath.mkAbs qs)) im.2 = true →
            LocalPath.getNameCount '/' im.2 ≤ LocalPath.getNameCount '/' f.2) := by
  have hseg : ∀ g ∈ qs, NodePath.SegOk g := fun g hg => (hqc g hg).1
  have hqcanon : NodePath.CanonAbs (LocalPath.parsePosix (NodePath.mkAbs qs)) :=
    ⟨qs, hqc, hqa, NodePath.parsePosix_mkAbs qs hseg⟩
  constructor
  · intro hnone
    show (match LocalFileSystemProvider.getFileStoreLoop '/'
        (LocalPath.toAbsolutePath cwd (LocalPath.parsePosix (NodePath.mkAbs qs)))
        ((stores.enum.map (fun ims => ims.2.map (fun m => (ims.1, m)))).flatten) none with
      | some f => (Except.ok f : Except JsError (Nat × LocalPath))
      | none => Except.error (.illegalArgument (str "Path does not have a FileStore"))) =
      Except.error (.illegalArgument (str "Path does not have a FileStore"))
    rw [NodePath.toAbsolutePath_parsePosix_mkAbs cwd qs hseg,
      LocalFileSystemProvider.getFileStoreLoop_none _ _ hnone]
  · intro hex
    obtain ⟨f0, hlp⟩ := LocalFileSystemProvider.getFileStoreLoop_some
      (LocalPath.parsePosix (NodePath.mkAbs qs))
      ((stores.enum.map (fun ims => ims.2.map (fun m => (ims.1, m)))).flatten) none
      (Or.inl hex)
    obtain ⟨⟨_, hsw⟩, hmax, _⟩ :=
      LocalFileSystemProvider.getFileStoreLoop_spec _ hqcanon _ hmounts none
        (by
          intro g hg
          cases hg) f0 hlp
    refine ⟨f0, ?_, hsw, hmax⟩
    show (match LocalFileSystemProvider.getFileStoreLoop '/'
        (LocalPath.toAbsolutePath cwd (LocalPath.parsePosix (NodePath.mkAbs qs)))
        ((stores.enum.map (fun ims => ims.2.map (fun m => (ims.1, m)))).flatten) none with
      | some f => (Except.ok f : Except JsError (Nat × LocalPath))
      | none => Except.error (.illegalArgument (str "Path does not have a FileStore"))) =
      Except.ok f0
    rw [NodePath.toAbsolutePath_parsePosix_mkAbs cwd qs hseg, hlp]

def witnessStores : List (List LocalPath) :=
  [[⟨LocalPathType.ABSOLUTE, ['/'], NodePath.mkAbs []⟩],
   [⟨LocalPathType.ABSOLUTE, ['/'], NodePath.mkAbs [str "home"]⟩]]

theorem claim9_witness :
    ∃ f, LocalFileSystemProvider.getFileStore (str "/cwd") witnessStores
        (LocalPath.parsePosix (NodePath.mkAbs [str "home", str "user"])) = .ok f ∧
      LocalPath.startsWithL '/'
        (LocalPath.parsePosix (NodePath.mkAbs [str "home", str "user"])) f.2 = true ∧
      ∀ im ∈ (witnessStores.enum.map (fun ims => ims.2.map (fun m => (ims.1, m)))).flatten,
        LocalPath.startsWithL '/'
            (LocalPath.parsePosix (NodePath.mkAbs [str "home", str "user"])) im.2 = true →
          LocalPath.getNameCount '/' im.2 ≤ LocalPath.getNameCount '/' f.2 :=
  (claim9_mount_resolution (str "/cwd") witnessStores [str "home", str "user"]
    (by decide) (by decide)
    (by
      intro im him
      have him2 : im ∈
          [((0 : Nat), (⟨LocalPathType.ABSOLUTE, ['/'], NodePath.mkAbs []⟩ : LocalPath)),
           (1, ⟨LocalPathType.ABSOLUTE, ['/'], NodePath.mkAbs [str "home"]⟩)] := him
      rcases List.mem_cons.mp him2 with h1 | h2
      · subst h1
        exact ⟨[], by decide, by decide, rfl⟩
      · rcases List.mem_cons.mp h2 with h3 | h4
        · subst h3
          exact ⟨[str "home"], by decide, by decide, rfl⟩
        · simp at h4)).2
    ⟨(1, ⟨LocalPathType.ABSOLUTE, ['/'], NodePath.mkAbs [str "home"]⟩), by decide, by decide⟩

namespace NodePath

theorem splitSegs_mkAbs (gs : List Str) (h : ∀ g ∈ gs, g ≠ [] ∧ '/' ∉ g)
    (hne : gs ≠ []) : splitSegs '/' (mkAbs gs) = [] :: gs := by
  rw [show mkAbs gs = '/' :: joinSegs '/' gs from mkS_true_false_eq gs, splitSegs_cons_sep,
    splitSegs_join gs (fun g hg => (h g hg).2) hne]

theorem mkAbs_getLast_ne_slash (gs : List Str) (h : ∀ g ∈ gs, g ≠ [] ∧ '/' ∉ g)
    (hne : gs ≠ []) : ¬ (mkAbs gs).getLast? = some '/' := by
  intro hx
  rw [show mkAbs gs = mkS true gs false from rfl,
    mkS_getLast_false gs true (fun g hg => (h g hg).1) hne] at hx
  exact joinSegs_getLast_ne_slash gs h hne '/' hx rfl

theorem posixNormalize_mkAbs (gs : List Str) (h : ∀ g ∈ gs, CanonSeg g) :
    posixNormalize (mkAbs gs) = mkAbs gs := by
  cases hgs : gs with
  | nil => decide
  | cons g0 gs' =>
    rw [← hgs]
    have hne : gs ≠ [] := by
      rw [hgs]
      simp
    have h' : ∀ g ∈ gs, g ≠ [] ∧ '/' ∉ g := fun g hg => ⟨(h g hg).1.1, (h g hg).1.2.1⟩
    have hdot : dotProcess false ([] :: gs) = gs := by
      unfold dotProcess
      rw [List.foldl_cons, dotStep_empty]
      rw [foldl_dotStep_canon false gs
        (fun g hg => ⟨(h g hg).1.1, (h g hg).2.1, (h g hg).2.2⟩) []]
      rfl
    unfold posixNormalize
    rw [if_neg (mkAbs_ne_nil gs)]
    rw [mkAbs_head gs]
    rw [splitSegs_mkAbs gs h' hne]
    simp only [decide_True, Bool.not_true]
    rw [hdot, if_neg hne, if_pos trivial,
      if_neg (mkAbs_getLast_ne_slash gs h' hne), List.append_nil]
    exact (mkS_true_false_eq gs).symm

theorem jsEndsWith_append_dot (s : Str) : LocalPath.jsEndsWith s (s ++ ['.']) = false := by
  unfold LocalPath.jsEndsWith
  cases hx : (s ++ ['.']).isSuffixOf s with
  | false => rfl
  | true =>
    exfalso
    have hsuf : (s ++ ['.']) <:+ s := List.isSuffixOf_iff_suffix.mp hx
    have hlen := List.IsSuffix.length_le hsuf
    simp at hlen

theorem jsEndsWith_colon_dot (gs : List Str) (hcolon : ∀ g ∈ gs, ':' ∉ g) :
    LocalPath.jsEndsWith (mkAbs gs) (str ":.") = false := by
  unfold LocalPath.jsEndsWith
  cases hx : (str ":.").isSuffixOf (mkAbs gs) with
  | false => rfl
  | true =>
    exfalso
    have hsuf : str ":." <:+ mkAbs gs := List.isSuffixOf_iff_suffix.mp hx
    have hmem : (':' : Char) ∈ mkAbs gs := List.IsSuffix.subset hsuf (by decide)
    rw [show mkAbs gs = '/' :: joinSegs '/' gs from mkS_true_false_eq gs] at hmem
    rcases List.mem_cons.mp hmem with h1 | h2
    · exact absurd h1 (by decide)
    · rcases joinSegs_mem_chars gs ':' h2 with h3 | ⟨g, hg, hgc⟩
      · exact absurd h3 (by decide)
      · exact hcolon g hg hgc

theorem normalize_mkAbs (gs : List Str) (h : ∀ g ∈ gs, CanonSeg g)
    (hcolon : ∀ g ∈ gs, ':' ∉ g) :
    LocalPath.normalize (LocalPath.parsePosix (mkAbs gs)) =
      LocalPath.parsePosix (mkAbs gs) := by
  have hseg : ∀ g ∈ gs, SegOk g := fun g hg => (h g hg).1
  have hdotfalse : ¬ ((mkAbs gs).length = 1 ∧ mkAbs gs = str ".") := by
    intro hand
    have h2 := hand.2
    rw [show mkAbs gs = '/' :: joinSegs '/' gs from mkS_true_false_eq gs] at h2
    simp [str] at h2
  unfold LocalPath.normalize
  rw [show (LocalPath.parsePosix (mkAbs gs)).path = mkAbs gs from by
    rw [parsePosix_mkAbs gs hseg]]
  rw [posixNormalize_mkAbs gs h]
  show LocalPath.parsePosix (if (LocalPath.jsEndsWith (mkAbs gs) (mkAbs gs ++ ['.']) ||
      LocalPath.jsEndsWith (mkAbs gs) (str ":.") ||
      decide (List.length (mkAbs gs) = 1 ∧ mkAbs gs = str ".")) = true then
        List.take (List.length (mkAbs gs) - 1) (mkAbs gs) else mkAbs gs) =
    LocalPath.parsePosix (mkAbs gs)
  rw [jsEndsWith_append_dot (mkAbs gs), jsEndsWith_colon_dot gs hcolon]
  rw [Bool.false_or, Bool.false_or, decide_eq_false hdotfalse]
  rw [if_neg Bool.false_ne_true]

end NodePath

/-- C4 (amended): `normalize` is not idempotent on every `LocalPath` value
(see the counterexample with path `"./"`), but on parses of canonical
absolute POSIX paths whose segments contain no `':'` it is the identity,
and hence idempotent. -/
theorem claim4_normalize_idempotent (gs : List Str)
    (h : ∀ g ∈ gs, NodePath.CanonSeg g) (hcolon : ∀ g ∈ gs, ':' ∉ g) :
    LocalPath.normalize (LocalPath.parsePosix (NodePath.mkAbs gs)) =
      LocalPath.parsePosix (NodePath.mkAbs gs) ∧
    LocalPath.normalize (LocalPath.normalize (LocalPath.parsePosix (NodePath.mkAbs gs))) =
      LocalPath.normalize (LocalPath.parsePosix (NodePath.mkAbs gs)) := by
  refine ⟨NodePath.normalize_mkAbs gs h hcolon, ?_⟩
  rw [NodePath.normalize_mkAbs gs h hcolon]
  exact NodePath.normalize_mkAbs gs h hcolon

theorem claim4_witness :
    LocalPath.normalize (LocalPath.parsePosix (NodePath.mkAbs [str "a", str "b"])) =
      LocalPath.parsePosix (NodePath.mkAbs [str "a", str "b"]) ∧
    LocalPath.normalize (LocalPath.normalize
        (LocalPath.parsePosix (NodePath.mkAbs [str "a", str "b"]))) =
      LocalPath.normalize (LocalPath.parsePosix (NodePath.mkAbs [str "a", str "b"])) :=
  claim4_normalize_idempotent [str "a", str "b"] (by decide) (by decide)
